import Mathlib

/-!
Verification of the CSP solver family of this repository
(files 17-21 under 1.1.3_Satisfaccion_de_restricciones):
plain backtracking (file 18), forward checking (file 19),
AC-3 constraint propagation (file 20) and conflict-directed
backjumping (file 21), all over the fixed Australia map-coloring
instance hard-coded in those modules.

Modelling conventions:
* Region names are coded as naturals: WA=0, NT=1, SA=2, Q=3, NSW=4, V=5, T=6.
* Colors are coded as naturals: ROJO=0, VERDE=1, AZUL=2.
* Python dictionaries keyed by variables become association lists
  (`List (Nat × Nat)`) with the usual overwrite/delete operations;
  value iteration order of a dict is its insertion order, which the
  association list preserves.
* Python sets of variables (the conflict sets of file 21) become
  duplicate-free lists built by `unionL`; every use in the source
  (emptiness test, union, maximum of member indices) only depends on
  membership, which the list model preserves.
* The unbounded recursion of file 18 and the unbounded `while` loop of
  file 21 are embedded with an explicit fuel argument; running out of
  fuel yields `none`, while `some r` means the Python code terminates
  with result `r`.  The AC-3 queue loop of file 20 is embedded the
  same way.
-/

/-! ## Dictionaries as association lists -/

/-- Lookup in a Python dict modelled as an association list. -/
def dictGet {α : Type} (d : List (Nat × α)) (k : Nat) : Option α :=
  (d.find? (fun p => p.1 == k)).map (fun p => p.2)

/-- `d[k] = v` on a Python dict: overwrite in place if the key exists,
otherwise append (dicts preserve insertion order). -/
def dictSet {α : Type} (d : List (Nat × α)) (k : Nat) (v : α) : List (Nat × α) :=
  if (d.find? (fun p => p.1 == k)).isSome then
    d.map (fun p => if p.1 == k then (k, v) else p)
  else
    d ++ [(k, v)]

/-- `del d[k]` on a Python dict (total: a no-op when the key is absent;
every call site in the sources either checks membership first or is
reached only with the key present). -/
def dictDel {α : Type} (d : List (Nat × α)) (k : Nat) : List (Nat × α) :=
  d.filter (fun p => p.1 != k)

/-- Python set union `s.update t` for variable sets modelled as lists:
append the members of `t` not already present. -/
def unionL (s t : List Nat) : List Nat :=
  t.foldl (fun acc x => if x ∈ acc then acc else acc ++ [x]) s

/-- First index of `v` in `l` (`l.index(v)` in Python; call sites guard
membership first). -/
def idxOfNat (v : Nat) (l : List Nat) : Nat :=
  l.findIdx (fun x => x == v)

/-- `max(l)` for a nonempty list of naturals (call sites guard nonemptiness). -/
def maxList (l : List Nat) : Nat :=
  l.foldl Nat.max 0

/-! ## The fixed CSP instance shared by files 17-21

`variables`, `dominio_base` and `adyacentes` are module-level globals in
every script; the search functions receive the variable order and the
domains as parameters but read the adjacency through the global table. -/

/-- The `adyacentes` table of files 18-21 (WA=0, NT=1, SA=2, Q=3, NSW=4,
V=5, T=6); `ady v = []` for codes outside the table, matching
`adyacentes.get(v, [])`. -/
def ady : Nat → List Nat
  | 0 => [1, 2]
  | 1 => [0, 2, 3]
  | 2 => [0, 1, 3, 4, 5]
  | 3 => [1, 2, 4]
  | 4 => [2, 3, 5]
  | 5 => [2, 4, 6]
  | 6 => [5]
  | _ => []

/-- The `variables` list of files 18-21. -/
def variables7 : List Nat := [0, 1, 2, 3, 4, 5, 6]

/-- The full three-color domain `['ROJO', 'VERDE', 'AZUL']`. -/
def colores3 : List Nat := [0, 1, 2]

/-- `no_conflicto_binario`: true iff `var_a = val_a` and `var_b = val_b`
do not violate the not-equal constraint; unrelated pairs never conflict. -/
def no_conflicto_binario (varA valA varB valB : Nat) : Bool :=
  if varB ∈ ady varA then valA != valB else true

/-! ### Facts about the adjacency table -/

theorem ady_of_ge (a : Nat) : ady (a + 7) = [] := rfl

theorem mem_ady_lt {a b : Nat} (h : b ∈ ady a) : a < 7 ∧ b < 7 := by
  rcases Nat.lt_or_ge a 7 with ha | ha
  · refine ⟨ha, ?_⟩
    have : ∀ x, x < 7 → ∀ y ∈ ady x, y < 7 := by decide
    exact this a ha b h
  · obtain ⟨k, rfl⟩ : ∃ k, a = k + 7 := ⟨a - 7, by omega⟩
    rw [ady_of_ge] at h
    cases h

theorem ady_symm {a b : Nat} : b ∈ ady a ↔ a ∈ ady b := by
  constructor
  · intro h
    obtain ⟨ha, hb⟩ := mem_ady_lt h
    have : ∀ x, x < 7 → ∀ y, y < 7 → y ∈ ady x → x ∈ ady y := by decide
    exact this a ha b hb h
  · intro h
    obtain ⟨hb, ha⟩ := mem_ady_lt h
    have : ∀ x, x < 7 → ∀ y, y < 7 → y ∈ ady x → x ∈ ady y := by decide
    exact this b hb a ha h

theorem ady_irrefl (a : Nat) : a ∉ ady a := by
  intro h
  obtain ⟨ha, _⟩ := mem_ady_lt h
  have : ∀ x, x < 7 → x ∉ ady x := by decide
  exact this a ha h

theorem no_conflicto_symm (a x b y : Nat) :
    no_conflicto_binario a x b y = no_conflicto_binario b y a x := by
  unfold no_conflicto_binario
  by_cases h : b ∈ ady a
  · have h2 : a ∈ ady b := ady_symm.mp h
    simp only [h, h2, if_true]
    by_cases hxy : x = y
    · subst hxy; rfl
    · have hx : (x != y) = true := bne_iff_ne.mpr hxy
      have hy : (y != x) = true := bne_iff_ne.mpr (Ne.symm hxy)
      rw [hx, hy]
  · have h2 : a ∉ ady b := fun hc => h (ady_symm.mpr hc)
    simp [h, h2]

/-! ## File 18: plain backtracking search -/

/-- `es_consistente_con_asignacion`: may `var = valor` be added without
violating a constraint against the already-assigned variables? -/
def es_consistente_con_asignacion (asgn : List (Nat × Nat)) (var valor : Nat) : Bool :=
  asgn.all (fun p => no_conflicto_binario var valor p.1 p.2)

/-- The value loop of `backtracking`: try the candidate values in order;
on a consistent one, assign it and recurse through `recur`; when the
recursion fails, delete the tentative assignment from the returned state
and try the next value.  The result pairs the search answer with the
final state of the in-place mutated `asignacion_parcial`; the outer
`none` means the recursion ran out of fuel. -/
def btTryWith (recur : List (Nat × Nat) → Option (Option (List (Nat × Nat)) × List (Nat × Nat)))
    (asgn : List (Nat × Nat)) (var : Nat) :
    List Nat → Option (Option (List (Nat × Nat)) × List (Nat × Nat))
  | [] => some (none, asgn)
  | v :: vals =>
    if es_consistente_con_asignacion asgn var v then
      match recur (dictSet asgn var v) with
      | none => none
      | some (some sol, st) => some (some sol, st)
      | some (none, st) => btTryWith recur (dictDel st var) var vals
    else
      btTryWith recur asgn var vals

/-- `backtracking` of file 18.  Fuel bounds the recursion depth only (each
unit of fuel is one nesting level, so `orden.length + 1` always suffices);
the branch where `asignacion_parcial` is longer than `variables_orden`
would raise `IndexError` in Python and is mapped to the out-of-fuel
answer `none`. -/
def backtracking (orden : List Nat) (doms : Nat → List Nat) :
    Nat → List (Nat × Nat) → Option (Option (List (Nat × Nat)) × List (Nat × Nat))
  | 0 => fun _ => none
  | fuel + 1 => fun asgn =>
    if asgn.length = orden.length then some (some asgn, asgn)
    else
      match orden.drop asgn.length with
      | [] => none
      | var :: _ => btTryWith (backtracking orden doms fuel) asgn var (doms var)

/-! ## File 19: forward checking (`podar_dominios`) -/

/-- The neighbor loop of `podar_dominios`: for each not-yet-assigned
neighbor, keep only the values compatible with `varA = valA`; `none`
as soon as some neighbor domain empties. -/
def podarGo (asgn : List (Nat × Nat)) (varA valA : Nat) :
    List Nat → (Nat → List Nat) → Option (Nat → List Nat)
  | [], nd => some nd
  | u :: rest, nd =>
    if (dictGet asgn u).isSome then podarGo asgn varA valA rest nd
    else
      let filtrado := (nd u).filter (fun w => no_conflicto_binario varA valA u w)
      if filtrado.length = 0 then none
      else podarGo asgn varA valA rest (fun x => if x = u then filtrado else nd x)

/-- `podar_dominios` of file 19: fix `dominios[varA] = [valA]`, prune the
unassigned neighbors, fail on an empty neighbor domain.  The Python
function deep-copies its input before mutating, so the pure embedding
returning a fresh domain map is exact (the caller's map is untouched). -/
def podar_dominios (doms : Nat → List Nat) (asgn : List (Nat × Nat))
    (varA valA : Nat) : Option (Nat → List Nat) :=
  podarGo asgn varA valA (ady varA) (fun x => if x = varA then [valA] else doms x)

/-! ## File 20: AC-3 constraint propagation -/

/-- `revisar_arco`: prune from `dominios[xi]` every value with no
compatible partner in `dominios[xj]`; the Boolean reports whether
anything was removed. -/
def revisar_arco (xi xj : Nat) (doms : Nat → List Nat) : Bool × (Nat → List Nat) :=
  let nd := (doms xi).filter (fun v => (doms xj).any (fun w => no_conflicto_binario xi v xj w))
  if nd.length = (doms xi).length then (false, doms)
  else (true, fun x => if x = xi then nd else doms x)

/-- The initial AC-3 work queue: every directed arc of the global graph. -/
def colaInicial : List (Nat × Nat) :=
  variables7.flatMap (fun xi => (ady xi).map (fun xj => (xi, xj)))

/-- The queue loop of `ac3`: pop an arc, revise it; on a change, fail if
the revised domain emptied, otherwise re-enqueue the arcs into `xi`;
fuel-bounded (`none` = out of fuel). -/
def ac3go : Nat → List (Nat × Nat) → (Nat → List Nat) → Option (Bool × (Nat → List Nat))
  | 0, _, _ => none
  | _ + 1, [], doms => some (true, doms)
  | fuel + 1, (xi, xj) :: rest, doms =>
    match revisar_arco xi xj doms with
    | (false, _) => ac3go fuel rest doms
    | (true, nd) =>
      if (nd xi).length = 0 then some (false, nd)
      else
        ac3go fuel
          (rest ++ ((ady xi).filter (fun xk => xk != xj)).map (fun xk => (xk, xi))) nd

/-- `ac3` of file 20: run the queue loop from the full arc queue. -/
def ac3 (fuel : Nat) (doms : Nat → List Nat) : Option (Bool × (Nat → List Nat)) :=
  ac3go fuel colaInicial doms

/-- An arc `(xi, xj)` is locally consistent: every value left for `xi`
has at least one compatible value left for `xj`. -/
def arcoConsistente (xi xj : Nat) (doms : Nat → List Nat) : Bool :=
  (doms xi).all (fun v => (doms xj).any (fun w => no_conflicto_binario xi v xj w))

/-! ## File 21: conflict-directed backjumping -/

/-- `es_consistente_con_parcial`, conflict part: the already-assigned
variables that clash with `var = valor` (the Python pair's Boolean is
this list being empty). -/
def conflictosDirectos (asgn : List (Nat × Nat)) (var valor : Nat) : List Nat :=
  (asgn.filter (fun p => !(no_conflicto_binario var valor p.1 p.2))).map (fun p => p.1)

/-- The inner value loop of `backjumping`, iterating the domain from the
current trial index: returns `(some (value, index), confs)` on the first
consistent value, or `(none, confs)` when the domain is exhausted, with
`confs` the conflicting variables met along the way (accumulated into
`conflict_set[var]` by the caller). -/
def tryValsGo (asgn : List (Nat × Nat)) (var : Nat) :
    List Nat → Nat → List Nat → Option (Nat × Nat) × List Nat
  | [], _, acc => (none, acc)
  | v :: rest, t, acc =>
    let confs := conflictosDirectos asgn var v
    if confs.isEmpty then (some (v, t), acc)
    else tryValsGo asgn var rest (t + 1) (unionL acc confs)

/-- Value trial starting at trial index `t` of `dom`. -/
def tryVals (asgn : List (Nat × Nat)) (var : Nat) (dom : List Nat) (t : Nat) :
    Option (Nat × Nat) × List Nat :=
  tryValsGo asgn var (dom.drop t) t []

/-- The jump-target computation of `backjumping`: one level back when the
conflict set is empty, otherwise the largest order-index among the
conflict-set members occurring in `orden` (one level back if none do). -/
def bjTarget (orden : List Nat) (idx : Int) (csv : List Nat) : Int :=
  if csv.isEmpty then idx - 1
  else
    let idxs := (csv.filter (fun v => orden.contains v)).map (fun v => idxOfNat v orden)
    if idxs.isEmpty then idx - 1 else (maxList idxs : Int)

/-- The mutable state of the `backjumping` while-loop of file 21: the
assignment, the conflict-set dict and the value-trial-index dict are
association lists, like the Python dicts they model.  `csGet`/`trialGet`
read them with the initialisation defaults (the empty set, index 0):
the Python code initialises both dicts over all of `orden_vars`, so
every read it performs hits an initialised key. -/
structure BJState where
  asgn : List (Nat × Nat)
  cs : List (Nat × List Nat)
  trial : List (Nat × Nat)
  idx : Int
  deriving DecidableEq

/-- Read a conflict set (`conflict_set[v]`). -/
def csGet (cs : List (Nat × List Nat)) (v : Nat) : List Nat :=
  (dictGet cs v).getD []

/-- Read a value-trial index (`intento_valor_idx[v]`). -/
def trialGet (tr : List (Nat × Nat)) (v : Nat) : Nat :=
  (dictGet tr v).getD 0

/-- One iteration of the `backjumping` while-loop: terminal answers are
`Sum.inr` (`none` when the index went negative, `some` on a complete
assignment); otherwise try values for the current variable and either
advance or perform the conflict-directed jump (merge the conflict set
into the target, clear assignment/conflict-set/trial data from the
current index onward, advance the target's trial index). -/
def bjStep (orden : List Nat) (doms : Nat → List Nat) (s : BJState) :
    BJState ⊕ Option (List (Nat × Nat)) :=
  if s.idx < 0 then Sum.inr none
  else if s.idx = (orden.length : Int) then Sum.inr (some s.asgn)
  else
    let i := s.idx.toNat
    let var := orden.getD i 0
    let dom := doms var
    match tryVals s.asgn var dom (trialGet s.trial var) with
    | (some (v, t), acc) =>
      Sum.inl
        { asgn := dictSet s.asgn var v
          cs := dictSet s.cs var (unionL (csGet s.cs var) acc)
          trial :=
            let t1 := dictSet s.trial var t
            if i + 1 < orden.length then dictSet t1 (orden.getD (i + 1) 0) 0 else t1
          idx := s.idx + 1 }
    | (none, acc) =>
      let csv := unionL (csGet s.cs var) acc
      let salto := bjTarget orden s.idx csv
      let cs1 := dictSet s.cs var csv
      let cs2 :=
        if csv.isEmpty then cs1
        else if 0 ≤ salto then
          dictSet cs1 (orden.getD salto.toNat 0)
            (unionL (csGet cs1 (orden.getD salto.toNat 0)) csv)
        else cs1
      let t1 := dictSet s.trial var (Nat.max dom.length (trialGet s.trial var))
      let js := List.range' i (orden.length - i)
      let asgn2 := js.foldl (fun a j => dictDel a (orden.getD j 0)) s.asgn
      let cs3 := js.foldl
        (fun c (j : Nat) => if (j : Int) ≠ salto then dictSet c (orden.getD j 0) [] else c) cs2
      let t2 := js.foldl
        (fun tr (j : Nat) => if (j : Int) ≠ salto then dictSet tr (orden.getD j 0) 0 else tr) t1
      let t3 :=
        if 0 ≤ salto then
          dictSet t2 (orden.getD salto.toNat 0) (trialGet t2 (orden.getD salto.toNat 0) + 1)
        else t2
      Sum.inl { asgn := asgn2, cs := cs3, trial := t3, idx := salto }

/-- The `backjumping` while-loop, fuel-bounded: `none` = out of fuel,
`some r` = the Python loop terminates with result `r` within that many
iterations. -/
def bjRun (orden : List Nat) (doms : Nat → List Nat) :
    Nat → BJState → Option (Option (List (Nat × Nat)))
  | 0 => fun _ => none
  | fuel + 1 => fun s =>
    match bjStep orden doms s with
    | Sum.inr r => some r
    | Sum.inl s2 => bjRun orden doms fuel s2

/-- The initial state of `backjumping`: empty assignment, a conflict-set
dict initialised to the empty set for every variable of the order, a
trial-index dict initialised to 0 for every variable, current index 0. -/
def bjInit (orden : List Nat) : BJState :=
  { asgn := []
    cs := orden.map (fun v => (v, ([] : List Nat)))
    trial := orden.map (fun v => (v, 0))
    idx := 0 }

/-- `backjumping` of file 21. -/
def backjumping (orden : List Nat) (doms : Nat → List Nat) (fuel : Nat) :
    Option (Option (List (Nat × Nat))) :=
  bjRun orden doms fuel (bjInit orden)

/-- Iterate `bjStep` a fixed number of times (`none` when a terminal
answer was reached strictly earlier). -/
def bjStepN (orden : List Nat) (doms : Nat → List Nat) : Nat → BJState → Option BJState
  | 0 => fun s => some s
  | n + 1 => fun s =>
    match bjStep orden doms s with
    | Sum.inl s2 => bjStepN orden doms n s2
    | Sum.inr _ => none

/-! ## Lemmas about the dictionary model -/

theorem dictGet_eq_none {α : Type} {d : List (Nat × α)} {k : Nat}
    (h : ∀ p ∈ d, p.1 ≠ k) : dictGet d k = none := by
  unfold dictGet
  rw [List.find?_eq_none.mpr (fun p hp => by simpa using h p hp)]
  rfl

theorem dictGet_nil {α : Type} (k : Nat) : dictGet ([] : List (Nat × α)) k = none := rfl

theorem dictSet_of_not_mem {α : Type} {d : List (Nat × α)} {k : Nat} (v : α)
    (h : ∀ p ∈ d, p.1 ≠ k) : dictSet d k v = d ++ [(k, v)] := by
  unfold dictSet
  rw [List.find?_eq_none.mpr (fun p hp => by simpa using h p hp)]
  rfl

theorem dictDel_of_not_mem {α : Type} {d : List (Nat × α)} {k : Nat}
    (h : ∀ p ∈ d, p.1 ≠ k) : dictDel d k = d := by
  unfold dictDel
  exact List.filter_eq_self.mpr (fun p hp => by simpa using h p hp)

theorem dictDel_append_single {α : Type} {d : List (Nat × α)} {k : Nat} {v : α}
    (h : ∀ p ∈ d, p.1 ≠ k) : dictDel (d ++ [(k, v)]) k = d := by
  unfold dictDel
  rw [List.filter_append, List.filter_eq_self.mpr (fun p hp => by simpa using h p hp)]
  simp

theorem dictGet_append_single_self {α : Type} {d : List (Nat × α)} {k : Nat} (v : α)
    (h : ∀ p ∈ d, p.1 ≠ k) : dictGet (d ++ [(k, v)]) k = some v := by
  unfold dictGet
  rw [List.find?_append, List.find?_eq_none.mpr (fun p hp => by simpa using h p hp)]
  simp

theorem dictGet_append_single_of_ne {α : Type} {d : List (Nat × α)} {k q : Nat} {v : α}
    (h : q ≠ k) : dictGet (d ++ [(k, v)]) q = dictGet d q := by
  unfold dictGet
  rw [List.find?_append]
  cases hf : d.find? (fun p => p.1 == q) with
  | some p => simp
  | none =>
    have hk : (((k : Nat), v).1 == q) = false := by simpa using fun hc => h hc.symm
    simp [List.find?, hk]

theorem dictGet_isSome_of_mem {α : Type} {d : List (Nat × α)} {k : Nat} {v : α}
    (h : (k, v) ∈ d) : (dictGet d k).isSome = true := by
  unfold dictGet
  cases hf : d.find? (fun p => p.1 == k) with
  | some p => rfl
  | none =>
    have := List.find?_eq_none.mp hf (k, v) h
    simp at this

theorem mem_of_dictGet {α : Type} {d : List (Nat × α)} {k : Nat} {v : α}
    (h : dictGet d k = some v) : (k, v) ∈ d := by
  unfold dictGet at h
  cases hf : d.find? (fun p => p.1 == k) with
  | none => rw [hf] at h; cases h
  | some p =>
    rw [hf] at h
    have hmem := List.mem_of_find?_eq_some hf
    have hk : p.1 = k := by simpa using List.find?_some hf
    have hv : p.2 = v := by simpa using h
    have hp : p = (k, v) := by cases p; simp_all
    rw [hp] at hmem
    exact hmem

theorem find?_dictDel {α : Type} {d : List (Nat × α)} {k q : Nat} (h : q ≠ k) :
    (dictDel d k).find? (fun p => p.1 == q) = d.find? (fun p => p.1 == q) := by
  unfold dictDel
  induction d with
  | nil => rfl
  | cons p rest ih =>
    by_cases hp : p.1 = k
    · have h1 : (p.1 != k) = false := by simpa using hp
      have h2 : (p.1 == q) = false := by
        simp only [beq_eq_false_iff_ne]
        rw [hp]; exact fun hc => h hc.symm
      rw [List.filter_cons, if_neg (by simp [h1]), List.find?_cons_of_neg _ (by simp [h2])]
      exact ih
    · have h1 : (p.1 != k) = true := by simpa using hp
      rw [List.filter_cons, if_pos (by simp [h1])]
      cases hq : (p.1 == q) with
      | true =>
        simp [List.find?_cons, hq]
      | false =>
        simp only [List.find?_cons, hq]
        exact ih

theorem dictGet_dictDel_of_ne {α : Type} {d : List (Nat × α)} {k q : Nat} (h : q ≠ k) :
    dictGet (dictDel d k) q = dictGet d q := by
  unfold dictGet
  rw [show List.find? (fun p => p.1 == q) (dictDel d k)
        = (dictDel d k).find? (fun p => p.1 == q) from rfl, find?_dictDel h]

theorem find?_map_overwrite_self {α : Type} {d : List (Nat × α)} {k : Nat} (v : α)
    (hf : (d.find? (fun p => p.1 == k)).isSome = true) :
    (d.map (fun p => if p.1 == k then (k, v) else p)).find? (fun p => p.1 == k)
      = some (k, v) := by
  induction d with
  | nil => simp at hf
  | cons p rest ih =>
    by_cases hp : p.1 = k
    · have h1 : (p.1 == k) = true := by simpa using hp
      rw [List.map_cons, if_pos h1, List.find?_cons_of_pos _ (by simp)]
    · have h1 : (p.1 == k) = false := by simpa using hp
      rw [List.find?_cons_of_neg _ (by simp [h1])] at hf
      rw [List.map_cons, if_neg (by simp [h1]), List.find?_cons_of_neg _ (by simp [h1])]
      exact ih hf

theorem find?_map_overwrite_of_ne {α : Type} {d : List (Nat × α)} {k q : Nat} {v : α} (h : q ≠ k) :
    (d.map (fun p => if p.1 == k then (k, v) else p)).find? (fun p => p.1 == q)
      = d.find? (fun p => p.1 == q) := by
  induction d with
  | nil => rfl
  | cons p rest ih =>
    by_cases hp : p.1 = k
    · have h1 : (p.1 == k) = true := by simpa using hp
      have h2 : (p.1 == q) = false := by
        simp only [beq_eq_false_iff_ne]
        rw [hp]; exact fun hc => h hc.symm
      have h3 : (((k : Nat), v).1 == q) = false := by
        simpa using fun hc => h hc.symm
      rw [List.map_cons, if_pos h1, List.find?_cons_of_neg _ (by simp [h3]),
        List.find?_cons_of_neg _ (by simp [h2])]
      exact ih
    · have h1 : (p.1 == k) = false := by simpa using hp
      rw [List.map_cons, if_neg (by simp [h1])]
      cases hq : (p.1 == q) with
      | true =>
        simp [List.find?_cons, hq]
      | false =>
        simp only [List.find?_cons, hq]
        exact ih

theorem dictGet_dictSet_self {α : Type} {d : List (Nat × α)} {k : Nat} (v : α) :
    dictGet (dictSet d k v) k = some v := by
  unfold dictSet
  by_cases hf : (d.find? (fun p => p.1 == k)).isSome = true
  · rw [if_pos hf]
    unfold dictGet
    rw [find?_map_overwrite_self v hf]
    rfl
  · rw [if_neg hf]
    apply dictGet_append_single_self
    intro p hp hc
    apply hf
    rw [List.find?_isSome]
    exact ⟨p, hp, by simpa using hc⟩

theorem dictGet_dictSet_of_ne {α : Type} {d : List (Nat × α)} {k q : Nat} (v : α) (h : q ≠ k) :
    dictGet (dictSet d k v) q = dictGet d q := by
  unfold dictSet
  by_cases hf : (d.find? (fun p => p.1 == k)).isSome = true
  · rw [if_pos hf]
    unfold dictGet
    rw [find?_map_overwrite_of_ne h]
  · rw [if_neg hf]
    exact dictGet_append_single_of_ne h

theorem dictGet_dictDel_self {α : Type} {d : List (Nat × α)} (k : Nat) :
    dictGet (dictDel d k) k = none := by
  apply dictGet_eq_none
  intro p hp
  have := List.of_mem_filter hp
  simpa using this

theorem mem_dictDel {α : Type} {d : List (Nat × α)} {k : Nat} {p : Nat × α}
    (h : p ∈ dictDel d k) : p ∈ d :=
  List.mem_of_mem_filter h

theorem dictGet_none_dictDel {α : Type} {d : List (Nat × α)} {k q : Nat}
    (h : dictGet d q = none) : dictGet (dictDel d k) q = none := by
  apply dictGet_eq_none
  intro p hp hc
  have hmem := mem_dictDel hp
  have : (dictGet d q).isSome = true := by
    rw [show q = p.1 from hc.symm]
    exact dictGet_isSome_of_mem (by simpa using hmem)
  rw [h] at this
  cases this

theorem keysNodup_dictDel {α : Type} {d : List (Nat × α)} (k : Nat)
    (h : (d.map Prod.fst).Nodup) : ((dictDel d k).map Prod.fst).Nodup :=
  ((List.filter_sublist d).map Prod.fst).nodup h

theorem mem_dictSet {α : Type} {d : List (Nat × α)} {k : Nat} {v : α} {p : Nat × α}
    (h : p ∈ dictSet d k v) : p = (k, v) ∨ (p ∈ d ∧ p.1 ≠ k) := by
  unfold dictSet at h
  by_cases hf : (d.find? (fun p => p.1 == k)).isSome = true
  · rw [if_pos hf] at h
    obtain ⟨q, hq, hpq⟩ := List.mem_map.mp h
    by_cases hqk : q.1 = k
    · left
      rw [← hpq, if_pos (by simpa using hqk)]
    · right
      rw [← hpq, if_neg (by simpa using hqk)]
      exact ⟨hq, hqk⟩
  · rw [if_neg hf] at h
    rcases List.mem_append.mp h with h2 | h2
    · right
      refine ⟨h2, fun hc => hf ?_⟩
      rw [List.find?_isSome]
      exact ⟨p, h2, by simpa using hc⟩
    · left
      simpa using h2

theorem keys_dictSet_of_found {α : Type} {d : List (Nat × α)} {k : Nat} (v : α)
    (hf : (d.find? (fun p => p.1 == k)).isSome = true) :
    (dictSet d k v).map Prod.fst = d.map Prod.fst := by
  unfold dictSet
  rw [if_pos hf, List.map_map]
  apply List.map_congr_left
  intro p hp
  by_cases hpk : p.1 = k
  · simp [hpk]
  · simp [hpk]

theorem keysNodup_dictSet {α : Type} {d : List (Nat × α)} (k : Nat) (v : α)
    (h : (d.map Prod.fst).Nodup) : ((dictSet d k v).map Prod.fst).Nodup := by
  by_cases hf : (d.find? (fun p => p.1 == k)).isSome = true
  · rw [keys_dictSet_of_found v hf]
    exact h
  · unfold dictSet
    rw [if_neg hf, List.map_append]
    rw [List.nodup_append]
    refine ⟨h, by simp, ?_⟩
    intro a ha hb
    have : a = k := by simpa using hb
    subst this
    obtain ⟨p, hp, hpk⟩ := List.mem_map.mp ha
    apply hf
    rw [List.find?_isSome]
    exact ⟨p, hp, by simpa using hpk⟩

theorem unionL_nil (s : List Nat) : unionL s [] = s := rfl

theorem unionL_cons (s : List Nat) (x : Nat) (t : List Nat) :
    unionL s (x :: t) = unionL (if x ∈ s then s else s ++ [x]) t := rfl

theorem mem_unionL {s t : List Nat} {x : Nat} :
    x ∈ unionL s t ↔ x ∈ s ∨ x ∈ t := by
  induction t generalizing s with
  | nil => simp [unionL]
  | cons c t ih =>
    rw [unionL_cons]
    by_cases hc : c ∈ s
    · rw [if_pos hc, ih]
      constructor
      · rintro (h | h)
        · exact Or.inl h
        · exact Or.inr (List.mem_cons_of_mem _ h)
      · rintro (h | h)
        · exact Or.inl h
        · rcases List.mem_cons.mp h with rfl | h2
          · exact Or.inl hc
          · exact Or.inr h2
    · rw [if_neg hc, ih]
      simp only [List.mem_append, List.mem_singleton, List.mem_cons]
      tauto

theorem csGet_dictSet_self (c : List (Nat × List Nat)) (k : Nat) (v : List Nat) :
    csGet (dictSet c k v) k = v := by
  unfold csGet
  rw [dictGet_dictSet_self]
  rfl

theorem csGet_dictSet_of_ne (c : List (Nat × List Nat)) {k q : Nat} (v : List Nat)
    (h : q ≠ k) : csGet (dictSet c k v) q = csGet c q := by
  unfold csGet
  rw [dictGet_dictSet_of_ne v h]

theorem trialGet_dictSet_self (c : List (Nat × Nat)) (k v : Nat) :
    trialGet (dictSet c k v) k = v := by
  unfold trialGet
  rw [dictGet_dictSet_self]
  rfl

theorem trialGet_dictSet_of_ne (c : List (Nat × Nat)) {k q : Nat} (v : Nat)
    (h : q ≠ k) : trialGet (dictSet c k v) q = trialGet c q := by
  unfold trialGet
  rw [dictGet_dictSet_of_ne v h]

/-- The stuck configuration the backjumping loop enters on a triangle of
mutually adjacent variables NT=1, SA=2, Q=3 with a two-color domain. -/
def bjAtascado (s : BJState) : Prop :=
  s.idx = 1 ∧ csGet s.cs 2 = [1, 2] ∧ 2 ≤ trialGet s.trial 2

theorem bjAtascado_step {s : BJState} (h : bjAtascado s) :
    ∃ s2, bjStep [1, 2, 3] (fun _ => [0, 1]) s = Sum.inl s2 ∧ bjAtascado s2 := by
  obtain ⟨a, cs, tr, idx⟩ := s
  obtain ⟨h1, h2, h3⟩ := h
  simp only at h1 h2 h3
  subst h1
  have hdrop : List.drop (trialGet tr 2) [0, 1] = [] :=
    List.drop_eq_nil_of_le (by simpa using h3)
  have htv : tryVals a 2 [0, 1] (trialGet tr 2) = (none, []) := by
    unfold tryVals
    rw [hdrop]
    rfl
  have hbt : bjTarget [1, 2, 3] 1 [1, 2] = 1 := by decide
  simp only [bjStep, show ¬((1 : Int) < 0) from by decide,
    show ((1 : Int) = (([1, 2, 3] : List Nat).length : Int)) = False from by simp,
    if_false, if_neg, reduceIte,
    show Int.toNat 1 = 1 from rfl,
    show ([1, 2, 3] : List Nat).getD 1 0 = 2 from rfl,
    show ([1, 2, 3] : List Nat).getD 2 0 = 3 from rfl,
    show ([1, 2, 3] : List Nat).length = 3 from rfl, htv, unionL_nil, h2, hbt,
    show ¬((1 : Int) = ((3 : Nat) : Int)) from by decide,
    show (3 : Nat) - 1 = 2 from rfl,
    show List.range' 1 2 = [1, 2] from rfl,
    show (([1, 2] : List Nat).isEmpty = true) = False from by simp,
    show ((0 : Int) ≤ 1) = True from by simp,
    show Int.toNat 1 = 1 from rfl,
    csGet_dictSet_self,
    show unionL [1, 2] [1, 2] = [1, 2] from rfl,
    show (((1 : Nat) : Int) ≠ (1 : Int)) = False from by simp,
    show (((2 : Nat) : Int) ≠ (1 : Int)) = True from by simp,
    List.foldl_cons, List.foldl_nil, if_true, if_false,
    show ([0, 1] : List Nat).length = 2 from rfl]
  refine ⟨_, rfl, rfl, ?_, ?_⟩
  · rw [csGet_dictSet_of_ne _ _ (by decide : (2 : Nat) ≠ 3), csGet_dictSet_self]
  · rw [trialGet_dictSet_self, trialGet_dictSet_of_ne _ _ (by decide : (2 : Nat) ≠ 3),
      trialGet_dictSet_self]
    exact le_trans (Nat.le_max_left 2 (trialGet tr 2)) (Nat.le_succ _)

theorem bjRun_none_of_atascado : ∀ fuel (s : BJState), bjAtascado s →
    bjRun [1, 2, 3] (fun _ => [0, 1]) fuel s = none := by
  intro fuel
  induction fuel with
  | zero => intro s _; rfl
  | succ n ih =>
    intro s h
    obtain ⟨s2, hstep, h2⟩ := bjAtascado_step h
    show bjRun [1, 2, 3] (fun _ => [0, 1]) (n + 1) s = none
    unfold bjRun
    rw [hstep]
    exact ih s2 h2

theorem bjRun_none_of_stepN (orden : List Nat) (doms : Nat → List Nat) :
    ∀ n s s2, bjStepN orden doms n s = some s2 →
    (∀ fuel, bjRun orden doms fuel s2 = none) →
    ∀ fuel, bjRun orden doms fuel s = none := by
  intro n
  induction n with
  | zero =>
    intro s s2 h hnone fuel
    have hs : s = s2 := by
      have : some s = some s2 := h
      exact Option.some.inj this
    rw [hs]
    exact hnone fuel
  | succ n ih =>
    intro s s2 h hnone fuel
    cases hstep : bjStep orden doms s with
    | inr r =>
      unfold bjStepN at h
      rw [hstep] at h
      cases h
    | inl s1 =>
      unfold bjStepN at h
      rw [hstep] at h
      cases fuel with
      | zero => rfl
      | succ m =>
        show bjRun orden doms (m + 1) s = none
        unfold bjRun
        rw [hstep]
        exact ih s1 s2 h hnone m

theorem bj_triangle_diverges :
    ∀ fuel, backjumping [1, 2, 3] (fun _ => [0, 1]) fuel = none := by
  have hproj : (bjStepN [1, 2, 3] (fun _ => [0, 1]) 3 (bjInit [1, 2, 3])).map
      (fun s => (s.idx, csGet s.cs 2, decide (2 ≤ trialGet s.trial 2)))
      = some (1, [1, 2], true) := by decide
  intro fuel
  unfold backjumping
  cases hsn : bjStepN [1, 2, 3] (fun _ => [0, 1]) 3 (bjInit [1, 2, 3]) with
  | none => rw [hsn] at hproj; cases hproj
  | some s2 =>
    rw [hsn] at hproj
    obtain ⟨h1, h2, h3⟩ : s2.idx = 1 ∧ csGet s2.cs 2 = [1, 2] ∧ 2 ≤ trialGet s2.trial 2 := by
      simpa using hproj
    exact bjRun_none_of_stepN _ _ 3 (bjInit [1, 2, 3]) s2 hsn
      (fun f => bjRun_none_of_atascado f s2 ⟨h1, h2, h3⟩) fuel

/-! ## Claim C9 -/

/-- C9: `ac3` run on the 7-variable Australia instance with every domain
equal to the full 3-color set terminates with success and prunes nothing:
the returned domain map is exactly the input map, so every variable still
has all 3 colors (the initial queue holds 20 arcs, so fuel 25 more than
covers the 21 loop iterations of the run). -/
theorem c9_ac3_australia_full_domains_unchanged :
    ac3 25 (fun _ => colores3) = some (true, fun _ => colores3) := rfl

/-! ## Claim C7 -/

/-- C7: on the unsolvable triangle instance (the mutually adjacent NT=1,
SA=2, Q=3 restricted to a 2-color domain), `backtracking` terminates and
returns the explicit no-solution signal `None` with the caller's
assignment dict left empty; in `backjumping` the terminal failure answer
is produced exactly when the loop index is negative — but on this same
triangle instance the `backjumping` loop never terminates at all (it
re-enters the same stuck configuration forever), so the claim that every
search variant terminates with `None` is violated by the code. -/
theorem c7_unsolvable_triangle_termination :
    backtracking [1, 2, 3] (fun _ => [0, 1]) 4 [] = some (none, []) ∧
    (∀ (orden : List Nat) (doms : Nat → List Nat) (s : BJState),
      bjStep orden doms s = Sum.inr none ↔ s.idx < 0) ∧
    (∀ fuel, backjumping [1, 2, 3] (fun _ => [0, 1]) fuel = none) := by
  refine ⟨by decide, ?_, bj_triangle_diverges⟩
  intro orden doms s
  constructor
  · intro h
    by_contra h0
    rw [bjStep, if_neg h0] at h
    by_cases h1 : s.idx = (orden.length : Int)
    · rw [if_pos h1] at h
      cases h
    · rw [if_neg h1] at h
      simp only [] at h
      split at h
      · cases h
      · cases h
  · intro h
    rw [bjStep, if_pos h]

/-! ## Claim C2 -/

/-- C2: the claim that backtracking and backjumping agree on solution
existence for every instance fails: on the triangle instance (mutually
adjacent NT=1, SA=2, Q=3 with a 2-color domain) `backtracking` settles
the question — it terminates with the no-solution answer — while
`backjumping` never returns any answer, no matter how much fuel the loop
is given: its conflict-set merge puts the jump target into its own
conflict set, after which every jump lands on the current index again. -/
theorem c2_existence_disagreement_on_triangle :
    (∃ r, backtracking [1, 2, 3] (fun _ => [0, 1]) 4 [] = some r ∧ r.1 = none) ∧
    (∀ fuel, backjumping [1, 2, 3] (fun _ => [0, 1]) fuel = none) :=
  ⟨⟨(none, []), by decide, rfl⟩, bj_triangle_diverges⟩

/-! ## Claim C3, counterexample -/

/-- C3 fails as stated: on the instance with order [WA=0, T=6, NT=1] and
one-value domains, after two loop iterations the machine sits at depth 2
(both WA and T assigned), and the third iteration is a jump to index 0
(NT's only value conflicts with WA alone) — yet the variable T=6 at
index 1, strictly between the jump target and the current depth, is
still assigned after the jump, contradicting the claim that every
variable between the jump target and the current depth is unassigned. -/
theorem c3_counterexample_between_var_stays_assigned :
    (bjStepN [0, 6, 1] (fun _ => [0]) 2 (bjInit [0, 6, 1])).map (fun s => s.idx) = some 2 ∧
    (bjStepN [0, 6, 1] (fun _ => [0]) 3 (bjInit [0, 6, 1])).map (fun s => s.idx) = some 0 ∧
    (bjStepN [0, 6, 1] (fun _ => [0]) 3 (bjInit [0, 6, 1])).bind (fun s => dictGet s.asgn 6) = some 0 := by
  refine ⟨by decide, by decide, by decide⟩

/-! ## Claim C8 -/

/-- C8 fails as stated: the scripts contain no construction-time
validation at all.  An empty initial domain is not rejected before the
search begins: both search variants run on it and return the ordinary
no-solution result. -/
theorem c8_counterexample_empty_domain_searched :
    backtracking [0] (fun _ => []) 3 [] = some (none, []) := by decide

/-- C8 amended: no malformed-problem check exists; a problem with an
empty initial domain reaches the search loops, which simply exhaust it
and answer no-solution (and the only adjacency table in these scripts is
the hard-coded Australia table, which is symmetric, so an asymmetric
table cannot arise at runtime). -/
theorem c8_amended_no_validation :
    (backtracking [0] (fun _ => []) 3 [] = some (none, []) ∧
     backjumping [0] (fun _ => []) 3 = some none) ∧
    (∀ a b, b ∈ ady a ↔ a ∈ ady b) :=
  ⟨⟨by decide, by decide⟩, fun a b => ady_symm⟩

/-! ## Claim C5: forward checking -/

theorem ady_nodup (a : Nat) : (ady a).Nodup := by
  rcases Nat.lt_or_ge a 7 with ha | ha
  · have : ∀ x, x < 7 → (ady x).Nodup := by decide
    exact this a ha
  · obtain ⟨k, rfl⟩ : ∃ k, a = k + 7 := ⟨a - 7, by omega⟩
    rw [ady_of_ge]
    exact List.nodup_nil

theorem podarGo_spec (asgn : List (Nat × Nat)) (varA valA : Nat) :
    ∀ (L : List Nat) (nd : Nat → List Nat), L.Nodup →
    (match podarGo asgn varA valA L nd with
     | some nd2 =>
        (∀ u, u ∉ L → nd2 u = nd u) ∧
        (∀ u ∈ L, ((dictGet asgn u).isSome → nd2 u = nd u) ∧
          (dictGet asgn u = none →
            nd2 u = (nd u).filter (fun w => no_conflicto_binario varA valA u w) ∧
            (nd u).filter (fun w => no_conflicto_binario varA valA u w) ≠ []))
     | none => ∃ u ∈ L, dictGet asgn u = none ∧
        (nd u).filter (fun w => no_conflicto_binario varA valA u w) = []) := by
  intro L
  induction L with
  | nil =>
    intro nd _
    exact ⟨fun u _ => rfl, fun u hu => absurd hu (List.not_mem_nil u)⟩
  | cons u rest ih =>
    intro nd hnd
    have hu : u ∉ rest := (List.nodup_cons.mp hnd).1
    have hrest : rest.Nodup := (List.nodup_cons.mp hnd).2
    by_cases hass : (dictGet asgn u).isSome = true
    · have hstep : podarGo asgn varA valA (u :: rest) nd = podarGo asgn varA valA rest nd := by
        simp only [podarGo]
        rw [if_pos hass]
      rw [hstep]
      have := ih nd hrest
      cases hres : podarGo asgn varA valA rest nd with
      | some nd2 =>
        rw [hres] at this
        refine ⟨fun w hw => this.1 w (fun hc => hw (List.mem_cons_of_mem _ hc)), ?_⟩
        intro w hw
        rcases List.mem_cons.mp hw with rfl | hw2
        · refine ⟨fun _ => this.1 w hu, fun hnone => ?_⟩
          rw [hnone] at hass
          cases hass
        · exact this.2 w hw2
      | none =>
        rw [hres] at this
        obtain ⟨w, hw, hw2, hw3⟩ := this
        exact ⟨w, List.mem_cons_of_mem _ hw, hw2, hw3⟩
    · have hnone : dictGet asgn u = none := by
        cases hg : dictGet asgn u with
        | none => rfl
        | some v => rw [hg] at hass; simp at hass
      by_cases hemp : ((nd u).filter (fun w => no_conflicto_binario varA valA u w)).length = 0
      · have hstep : podarGo asgn varA valA (u :: rest) nd = none := by
          simp only [podarGo]
          rw [if_neg (by simp [hass]), if_pos hemp]
        rw [hstep]
        exact ⟨u, List.mem_cons_self u rest, hnone, List.length_eq_zero.mp hemp⟩
      · have hstep : podarGo asgn varA valA (u :: rest) nd
            = podarGo asgn varA valA rest
              (fun x => if x = u then (nd u).filter (fun w => no_conflicto_binario varA valA u w) else nd x) := by
          simp only [podarGo]
          rw [if_neg (by simp [hass]), if_neg hemp]
        rw [hstep]
        set nd1 : Nat → List Nat :=
          fun x => if x = u then (nd u).filter (fun w => no_conflicto_binario varA valA u w) else nd x with hnd1
        have := ih nd1 hrest
        cases hres : podarGo asgn varA valA rest nd1 with
        | some nd2 =>
          rw [hres] at this
          have hnd1_ne : ∀ w, w ≠ u → nd1 w = nd w := by
            intro w hw
            rw [hnd1]
            simp [hw]
          have hnd1_u : nd1 u = (nd u).filter (fun w => no_conflicto_binario varA valA u w) := by
            rw [hnd1]
            simp
          refine ⟨?_, ?_⟩
          · intro w hw
            have hw_ne : w ≠ u := fun hc => hw (hc ▸ List.mem_cons_self u rest)
            have hw_rest : w ∉ rest := fun hc => hw (List.mem_cons_of_mem _ hc)
            rw [this.1 w hw_rest, hnd1_ne w hw_ne]
          · intro w hw
            rcases List.mem_cons.mp hw with rfl | hw2
            · refine ⟨fun hc => absurd hc (by simp [hnone]), fun _ => ?_⟩
              rw [this.1 w hu, hnd1_u]
              exact ⟨rfl, fun hc => hemp (by rw [hc]; rfl)⟩
            · have hw_ne : w ≠ u := fun hc => hu (hc ▸ hw2)
              refine ⟨fun hsome => ?_, fun hwnone => ?_⟩
              · rw [(this.2 w hw2).1 hsome, hnd1_ne w hw_ne]
              · have h3 := (this.2 w hw2).2 hwnone
                rw [hnd1_ne w hw_ne] at h3
                exact h3
        | none =>
          rw [hres] at this
          obtain ⟨w, hw, hw2, hw3⟩ := this
          have hw_ne : w ≠ u := fun hc => hu (hc ▸ hw)
          rw [show nd1 w = nd w from by rw [hnd1]; simp [hw_ne]] at hw3
          exact ⟨w, List.mem_cons_of_mem _ hw, hw2, hw3⟩

/-- C5: the forward-checking pruner `podar_dominios`, for an assignment
`varA = valA` with the value taken from the current domain of `varA`:
on success it fixes the current variable's domain to exactly `[valA]`,
replaces each unassigned neighbor's domain by its values compatible with
the assignment, leaves every other domain untouched, and every resulting
domain is a subset of the corresponding input domain; it returns the
failure signal `none` precisely when some unassigned neighbor's domain
would become empty.  (The Python code deep-copies the domain dict before
mutating, so the caller's map is never modified; the embedding is the
resulting pure function.) -/
theorem c5_podar_dominios_spec (doms : Nat → List Nat) (asgn : List (Nat × Nat))
    (varA valA : Nat) (hval : valA ∈ doms varA) :
    (∀ nd2, podar_dominios doms asgn varA valA = some nd2 →
      nd2 varA = [valA] ∧
      (∀ u, u ∈ ady varA → dictGet asgn u = none →
        nd2 u = (doms u).filter (fun w => no_conflicto_binario varA valA u w)) ∧
      (∀ u, u ≠ varA → (u ∉ ady varA ∨ (dictGet asgn u).isSome = true) → nd2 u = doms u) ∧
      (∀ u w, w ∈ nd2 u → w ∈ doms u)) ∧
    (podar_dominios doms asgn varA valA = none ↔
      ∃ u ∈ ady varA, dictGet asgn u = none ∧
        (doms u).filter (fun w => no_conflicto_binario varA valA u w) = []) := by
  have hpd : podar_dominios doms asgn varA valA
      = podarGo asgn varA valA (ady varA) (fun x => if x = varA then [valA] else doms x) := rfl
  have hndu : ∀ u, u ≠ varA →
      (fun x => if x = varA then [valA] else doms x) u = doms u := by
    intro u hu
    simp [hu]
  have hmem_ne : ∀ u, u ∈ ady varA → u ≠ varA := by
    intro u hu hc
    exact ady_irrefl varA (hc ▸ hu)
  constructor
  · intro nd2 h
    have hspec := podarGo_spec asgn varA valA (ady varA)
      (fun x => if x = varA then [valA] else doms x) (ady_nodup varA)
    rw [hpd] at h
    rw [h] at hspec
    have hvarA : nd2 varA = [valA] := by
      rw [hspec.1 varA (ady_irrefl varA)]
      simp
    have hnb : ∀ u, u ∈ ady varA → dictGet asgn u = none →
        nd2 u = (doms u).filter (fun w => no_conflicto_binario varA valA u w) := by
      intro u hu hnone
      have := ((hspec.2 u hu).2 hnone).1
      rw [hndu u (hmem_ne u hu)] at this
      exact this
    have hother : ∀ u, u ≠ varA → (u ∉ ady varA ∨ (dictGet asgn u).isSome = true) →
        nd2 u = doms u := by
      intro u hu hcase
      rcases hcase with hna | hsome
      · rw [hspec.1 u hna, hndu u hu]
      · by_cases hna : u ∈ ady varA
        · rw [(hspec.2 u hna).1 hsome, hndu u hu]
        · rw [hspec.1 u hna, hndu u hu]
    refine ⟨hvarA, hnb, hother, ?_⟩
    intro u w hw
    by_cases huA : u = varA
    · subst huA
      rw [hvarA] at hw
      rcases List.mem_singleton.mp hw with rfl
      exact hval
    · by_cases hna : u ∈ ady varA
      · cases hg : dictGet asgn u with
        | some v =>
          rw [hother u huA (Or.inr (by rw [hg]; rfl))] at hw
          exact hw
        | none =>
          rw [hnb u hna hg] at hw
          exact List.mem_of_mem_filter hw
      · rw [hother u huA (Or.inl hna)] at hw
        exact hw
  · have hspec := podarGo_spec asgn varA valA (ady varA)
      (fun x => if x = varA then [valA] else doms x) (ady_nodup varA)
    rw [hpd]
    cases hres : podarGo asgn varA valA (ady varA)
        (fun x => if x = varA then [valA] else doms x) with
    | some nd2 =>
      rw [hres] at hspec
      simp only [reduceCtorEq, false_iff]
      rintro ⟨u, hu, hnone, hfilt⟩
      have := ((hspec.2 u hu).2 hnone).2
      rw [hndu u (hmem_ne u hu)] at this
      exact this hfilt
    | none =>
      rw [hres] at hspec
      obtain ⟨u, hu, hnone, hfilt⟩ := hspec
      rw [hndu u (hmem_ne u hu)] at hfilt
      simp only [true_iff]
      exact ⟨u, hu, hnone, hfilt⟩

/-- Witness for C5 at a concrete input: assigning SA=2 the color ROJO=0
with full domains and nothing else assigned succeeds, fixes SA's domain,
prunes ROJO from each neighbor of SA, and leaves T untouched. -/
theorem c5_witness :
    (0 : Nat) ∈ (fun _ : Nat => colores3) 2 ∧
    (∀ nd2, podar_dominios (fun _ => colores3) [] 2 0 = some nd2 →
      nd2 2 = [0] ∧
      (∀ u, u ∈ ady 2 → dictGet ([] : List (Nat × Nat)) u = none →
        nd2 u = (colores3).filter (fun w => no_conflicto_binario 2 0 u w)) ∧
      (∀ u, u ≠ 2 → (u ∉ ady 2 ∨ (dictGet ([] : List (Nat × Nat)) u).isSome = true) → nd2 u = colores3) ∧
      (∀ u w, w ∈ nd2 u → w ∈ colores3)) ∧
    (podar_dominios (fun _ => colores3) [] 2 0 = none ↔
      ∃ u ∈ ady 2, dictGet ([] : List (Nat × Nat)) u = none ∧
        (colores3).filter (fun w => no_conflicto_binario 2 0 u w) = []) :=
  ⟨by decide, c5_podar_dominios_spec (fun _ => colores3) [] 2 0 (by decide)⟩

/-! ## Claim C4: AC-3 -/

theorem revisar_arco_of_consistent {xi xj : Nat} {doms : Nat → List Nat}
    (h : arcoConsistente xi xj doms = true) :
    revisar_arco xi xj doms = (false, doms) := by
  unfold revisar_arco
  have hall : ∀ v ∈ doms xi, ((doms xj).any (fun w => no_conflicto_binario xi v xj w)) = true :=
    List.all_eq_true.mp h
  have hfe : (doms xi).filter (fun v => (doms xj).any (fun w => no_conflicto_binario xi v xj w))
      = doms xi := List.filter_eq_self.mpr hall
  rw [if_pos (by rw [hfe])]

theorem revisar_arco_false_elim {xi xj : Nat} {doms nd : Nat → List Nat}
    (h : revisar_arco xi xj doms = (false, nd)) :
    nd = doms ∧ arcoConsistente xi xj doms = true := by
  unfold revisar_arco at h
  simp only [] at h
  split at h
  · next hlen =>
    have h2 : doms = nd := congrArg Prod.snd h
    subst h2
    refine ⟨rfl, ?_⟩
    have hfe : (doms xi).filter (fun v => (doms xj).any (fun w => no_conflicto_binario xi v xj w))
        = doms xi :=
      (List.filter_sublist _).eq_of_length hlen
    unfold arcoConsistente
    rw [List.all_eq_true]
    intro v hv
    have hvf : v ∈ (doms xi).filter
        (fun v => (doms xj).any (fun w => no_conflicto_binario xi v xj w)) := by
      rw [hfe]; exact hv
    exact (List.mem_filter.mp hvf).2
  · next hlen =>
    cases h

theorem revisar_arco_true_elim {xi xj : Nat} {doms nd : Nat → List Nat}
    (h : revisar_arco xi xj doms = (true, nd)) :
    nd = (fun x => if x = xi then
        (doms xi).filter (fun v => (doms xj).any (fun w => no_conflicto_binario xi v xj w))
      else doms x) := by
  unfold revisar_arco at h
  simp only [] at h
  split at h
  · cases h
  · exact ((Prod.mk.injEq _ _ _ _).mp h).2.symm

theorem arcoConsistente_of_subset {a b : Nat} {d1 d2 : Nat → List Nat}
    (hsub : ∀ v ∈ d2 a, v ∈ d1 a) (hb : d2 b = d1 b)
    (h : arcoConsistente a b d1 = true) : arcoConsistente a b d2 = true := by
  unfold arcoConsistente at h ⊢
  rw [List.all_eq_true] at h ⊢
  intro v hv
  rw [hb]
  exact h v (hsub v hv)

theorem mem_variables7_of_lt {a : Nat} (h : a < 7) : a ∈ variables7 := by
  have : ∀ x, x < 7 → x ∈ variables7 := by decide
  exact this a h

theorem mem_colaInicial {a b : Nat} (h : b ∈ ady a) : (a, b) ∈ colaInicial := by
  unfold colaInicial
  rw [List.mem_flatMap]
  exact ⟨a, mem_variables7_of_lt (mem_ady_lt h).1, List.mem_map.mpr ⟨b, h, rfl⟩⟩

theorem colaInicial_wf : ∀ p ∈ colaInicial, p.2 ∈ ady p.1 := by
  intro p hp
  unfold colaInicial at hp
  rw [List.mem_flatMap] at hp
  obtain ⟨xi, _, hmem⟩ := hp
  obtain ⟨xj, hxj, rfl⟩ := List.mem_map.mp hmem
  exact hxj

theorem ac3go_true_consistent :
    ∀ (fuel : Nat) (q : List (Nat × Nat)) (doms d2 : Nat → List Nat),
    (∀ p ∈ q, p.2 ∈ ady p.1) →
    (∀ a b, b ∈ ady a → (a, b) ∈ q ∨ arcoConsistente a b doms = true) →
    ac3go fuel q doms = some (true, d2) →
    ∀ a b, b ∈ ady a → arcoConsistente a b d2 = true := by
  intro fuel
  induction fuel with
  | zero =>
    intro q doms d2 _ _ h
    cases h
  | succ fuel ih =>
    intro q doms d2 hwf hinv h
    cases q with
    | nil =>
      have hd : doms = d2 := by
        have : some (true, doms) = some (true, d2) := h
        exact congrArg Prod.snd (Option.some.inj this)
      intro a b hab
      rw [← hd]
      rcases hinv a b hab with hmem | hcons
      · cases hmem
      · exact hcons
    | cons arc rest =>
      rcases arc with ⟨xi, xj⟩
      have hxj : xj ∈ ady xi := hwf (xi, xj) (List.mem_cons_self _ _)
      have hxj_ne : xj ≠ xi := fun hc => ady_irrefl xi (hc ▸ hxj)
      rcases hrv : revisar_arco xi xj doms with ⟨flag, nd⟩
      cases flag with
      | false =>
        obtain ⟨hnd, hcons⟩ := revisar_arco_false_elim hrv
        have hstep : ac3go (fuel + 1) ((xi, xj) :: rest) doms = ac3go fuel rest doms := by
          simp only [ac3go, hrv]
        rw [hstep] at h
        refine ih rest doms d2 (fun p hp => hwf p (List.mem_cons_of_mem _ hp)) ?_ h
        intro a b hab
        rcases hinv a b hab with hmem | hc
        · rcases List.mem_cons.mp hmem with heq | hmem2
          · right
            rw [show a = xi from congrArg Prod.fst heq, show b = xj from congrArg Prod.snd heq]
            exact hcons
          · left; exact hmem2
        · right; exact hc
      | true =>
        have hnd := revisar_arco_true_elim hrv
        have hnd_xi : nd xi = (doms xi).filter
            (fun v => (doms xj).any (fun w => no_conflicto_binario xi v xj w)) := by
          rw [hnd]
          simp
        have hnd_other : ∀ x, x ≠ xi → nd x = doms x := by
          intro x hx
          rw [hnd]
          simp [hx]
        by_cases hemp : (nd xi).length = 0
        · have hstep : ac3go (fuel + 1) ((xi, xj) :: rest) doms = some (false, nd) := by
            simp only [ac3go, hrv]
            rw [if_pos hemp]
          rw [hstep] at h
          have := Option.some.inj h
          cases congrArg Prod.fst this
        · have hstep : ac3go (fuel + 1) ((xi, xj) :: rest) doms
              = ac3go fuel (rest ++ ((ady xi).filter (fun xk => xk != xj)).map (fun xk => (xk, xi))) nd := by
            simp only [ac3go, hrv]
            rw [if_neg hemp]
          rw [hstep] at h
          have hwf2 : ∀ p ∈ rest ++ ((ady xi).filter (fun xk => xk != xj)).map (fun xk => (xk, xi)),
              p.2 ∈ ady p.1 := by
            intro p hp
            rcases List.mem_append.mp hp with hp1 | hp2
            · exact hwf p (List.mem_cons_of_mem _ hp1)
            · obtain ⟨xk, hxk, rfl⟩ := List.mem_map.mp hp2
              have : xk ∈ ady xi := List.mem_of_mem_filter hxk
              exact ady_symm.mpr this
          refine ih _ nd d2 hwf2 ?_ h
          intro a b hab
          by_cases hbxi : b = xi
          · subst hbxi
            by_cases haxj : a = xj
            · subst haxj
              -- the reverse arc (xj, xi): support survival or still queued
              rcases hinv a b hab with hmem | hcons
              · rcases List.mem_cons.mp hmem with heq | hmem2
                · exact absurd (congrArg Prod.fst heq) hxj_ne
                · left
                  exact List.mem_append.mpr (Or.inl hmem2)
              · right
                unfold arcoConsistente at hcons ⊢
                rw [List.all_eq_true] at hcons ⊢
                intro w hw
                rw [hnd_other a hxj_ne] at hw
                have := hcons w hw
                rw [List.any_eq_true] at this
                obtain ⟨v, hv, hcomp⟩ := this
                rw [List.any_eq_true]
                refine ⟨v, ?_, hcomp⟩
                rw [hnd_xi]
                apply List.mem_filter.mpr
                refine ⟨hv, ?_⟩
                rw [List.any_eq_true]
                refine ⟨w, hw, ?_⟩
                rw [no_conflicto_symm]
                exact hcomp
            · -- freshly re-enqueued arc (a, xi)
              left
              apply List.mem_append.mpr
              right
              apply List.mem_map.mpr
              refine ⟨a, ?_, rfl⟩
              apply List.mem_filter.mpr
              exact ⟨ady_symm.mpr hab, by simpa using haxj⟩
          · by_cases haxi : a = xi
            · subst haxi
              by_cases hbxj : b = xj
              · subst hbxj
                -- the freshly revised arc is now consistent
                right
                unfold arcoConsistente
                rw [List.all_eq_true]
                intro v hv
                rw [hnd_xi] at hv
                have := List.mem_filter.mp hv
                rw [hnd_other b hbxi]
                exact this.2
              · rcases hinv a b hab with hmem | hcons
                · rcases List.mem_cons.mp hmem with heq | hmem2
                  · exact absurd (congrArg Prod.snd heq) hbxj
                  · left
                    exact List.mem_append.mpr (Or.inl hmem2)
                · right
                  refine arcoConsistente_of_subset ?_ (hnd_other b hbxi) hcons
                  intro v hv
                  rw [hnd_xi] at hv
                  exact List.mem_of_mem_filter hv
            · rcases hinv a b hab with hmem | hcons
              · rcases List.mem_cons.mp hmem with heq | hmem2
                · exact absurd (congrArg Prod.fst heq) haxi
                · left
                  exact List.mem_append.mpr (Or.inl hmem2)
              · right
                refine arcoConsistente_of_subset ?_ (hnd_other b hbxi) hcons
                intro v hv
                rw [hnd_other a haxi] at hv
                exact hv

/-- C4: when `ac3` returns success, every arc `(Xi, Xj)` of the constraint
graph is locally consistent — every value remaining for `Xi` has at least
one compatible value remaining for `Xj`; and whenever a `Revise` step
removes values and empties the revised variable's domain, the queue loop
returns the failure answer `False` immediately at that very iteration. -/
theorem c4_ac3_success_and_failure :
    (∀ (fuel : Nat) (doms d2 : Nat → List Nat), ac3 fuel doms = some (true, d2) →
      ∀ a b, b ∈ ady a → arcoConsistente a b d2 = true) ∧
    (∀ (fuel xi xj : Nat) (rest : List (Nat × Nat)) (doms nd : Nat → List Nat),
      revisar_arco xi xj doms = (true, nd) → nd xi = [] →
      ac3go (fuel + 1) ((xi, xj) :: rest) doms = some (false, nd)) := by
  constructor
  · intro fuel doms d2 h a b hab
    refine ac3go_true_consistent fuel colaInicial doms d2 colaInicial_wf ?_ h a b hab
    intro a2 b2 hab2
    exact Or.inl (mem_colaInicial hab2)
  · intro fuel xi xj rest doms nd hrv hnil
    simp only [ac3go, hrv]
    rw [if_pos (by rw [hnil]; rfl)]

/-- Witness for C4: the Australia run with full domains succeeds, so the
theorem yields local consistency of a sample arc; and on the instance
fixing WA and NT to the single color ROJO, revising the arc (WA, NT)
empties WA's domain and the loop answers failure at once. -/
theorem c4_witness :
    (ac3 25 (fun _ => colores3) = some (true, fun _ => colores3) ∧
      arcoConsistente 2 0 (fun _ => colores3) = true) ∧
    ac3go 1 [(0, 1)] (fun v => if v ≤ 1 then [0] else colores3)
      = some (false, fun x => if x = 0 then [] else if x ≤ 1 then [0] else colores3) := by
  refine ⟨⟨rfl, ?_⟩, ?_⟩
  · exact c4_ac3_success_and_failure.1 25 (fun _ => colores3) (fun _ => colores3) rfl 2 0 (by decide)
  · exact c4_ac3_success_and_failure.2 0 0 1 [] (fun v => if v ≤ 1 then [0] else colores3)
      (fun x => if x = 0 then [] else if x ≤ 1 then [0] else colores3) rfl rfl

/-! ## Claim C6: AC-3 idempotence -/

theorem ac3go_noop (doms : Nat → List Nat)
    (hcons : ∀ a b, b ∈ ady a → arcoConsistente a b doms = true) :
    ∀ (q : List (Nat × Nat)), (∀ p ∈ q, p.2 ∈ ady p.1) →
    ∀ fuel, q.length < fuel → ac3go fuel q doms = some (true, doms) := by
  intro q
  induction q with
  | nil =>
    intro _ fuel hf
    cases fuel with
    | zero => omega
    | succ n => rfl
  | cons arc rest ih =>
    intro hwf fuel hf
    rcases arc with ⟨xi, xj⟩
    cases fuel with
    | zero =>
      rw [List.length_cons] at hf
      omega
    | succ n =>
      have hxj : xj ∈ ady xi := hwf (xi, xj) (List.mem_cons_self _ _)
      have hrv := revisar_arco_of_consistent (hcons xi xj hxj)
      simp only [ac3go, hrv]
      refine ih (fun p hp => hwf p (List.mem_cons_of_mem _ hp)) n ?_
      rw [List.length_cons] at hf
      omega

/-- C6: AC-3 is idempotent.  Whenever a run of `ac3` succeeds with final
domains `d2`, a second run on `d2` (with fuel covering the initial
queue, which is all it needs) succeeds and returns exactly `d2` again:
no further value is removed, every domain is left as the first run left
it. -/
theorem c6_ac3_idempotent (fuel : Nat) (doms d2 : Nat → List Nat)
    (h : ac3 fuel doms = some (true, d2)) :
    ∀ fuel2, colaInicial.length < fuel2 → ac3 fuel2 d2 = some (true, d2) := by
  intro fuel2 hf
  have hcons : ∀ a b, b ∈ ady a → arcoConsistente a b d2 = true := by
    refine ac3go_true_consistent fuel colaInicial doms d2 colaInicial_wf ?_ h
    exact fun a b hab => Or.inl (mem_colaInicial hab)
  exact ac3go_noop d2 hcons colaInicial colaInicial_wf fuel2 hf

/-- Witness for C6: the Australia full-domain run succeeds, and the
second run on its result returns the same domains. -/
theorem c6_witness :
    ac3 25 (fun _ => colores3) = some (true, fun _ => colores3) ∧
    colaInicial.length < 21 ∧
    ac3 21 (fun _ => colores3) = some (true, fun _ => colores3) :=
  ⟨rfl, by decide, c6_ac3_idempotent 25 (fun _ => colores3) (fun _ => colores3) rfl 21 (by decide)⟩

/-! ## Claims C10 and C1: the backtracking search of file 18

The invariant tying a partial assignment to the search discipline: its
keys are exactly the first `asgn.length` variables of the order, in
order (this holds for the empty dict the top-level call passes in and is
maintained by the search). -/

def keysPref (orden : List Nat) (asgn : List (Nat × Nat)) : Prop :=
  asgn.map Prod.fst = orden.take asgn.length

theorem keysPref_nil (orden : List Nat) : keysPref orden [] := rfl

theorem not_mem_take_of_drop_cons {orden : List Nat} {n v : Nat} {t : List Nat}
    (hnd : orden.Nodup) (hd : orden.drop n = v :: t) : v ∉ orden.take n := by
  intro hmem
  have hsplit : orden.take n ++ orden.drop n = orden := List.take_append_drop n orden
  have hnd2 : (orden.take n ++ orden.drop n).Nodup := by rw [hsplit]; exact hnd
  rw [List.nodup_append] at hnd2
  exact hnd2.2.2 hmem (hd ▸ List.mem_cons_self v t)

theorem keysPref_var_not_mem {orden : List Nat} {asgn : List (Nat × Nat)} {v : Nat}
    {t : List Nat} (hnd : orden.Nodup) (hpref : keysPref orden asgn)
    (hd : orden.drop asgn.length = v :: t) : ∀ p ∈ asgn, p.1 ≠ v := by
  intro p hp hc
  have hv : v ∈ asgn.map Prod.fst := List.mem_map.mpr ⟨p, hp, hc⟩
  rw [hpref] at hv
  exact not_mem_take_of_drop_cons hnd hd hv

theorem keysPref_extend {orden : List Nat} {asgn : List (Nat × Nat)} {v val : Nat}
    {t : List Nat} (hpref : keysPref orden asgn)
    (hd : orden.drop asgn.length = v :: t) :
    keysPref orden (asgn ++ [(v, val)]) := by
  unfold keysPref at hpref ⊢
  rw [List.map_append, List.length_append, hpref]
  have hget : orden[asgn.length]? = some v := by
    rw [← List.head?_drop, hd]
    rfl
  rw [show asgn.length + [(v, val)].length = asgn.length + 1 from rfl, List.take_succ, hget]
  rfl

theorem btTryWith_none_restores (orden : List Nat) (doms : Nat → List Nat)
    (fuel : Nat) (hnd : orden.Nodup)
    (hrec : ∀ a st2, keysPref orden a →
      backtracking orden doms fuel a = some (none, st2) → st2 = a) :
    ∀ (vals : List Nat) (asgn : List (Nat × Nat)) (var : Nat) (t : List Nat)
      (st : List (Nat × Nat)),
    keysPref orden asgn →
    orden.drop asgn.length = var :: t →
    btTryWith (backtracking orden doms fuel) asgn var vals = some (none, st) →
    st = asgn := by
  intro vals
  induction vals with
  | nil =>
    intro asgn var t st _ _ h
    have := Option.some.inj h
    exact (congrArg Prod.snd this).symm
  | cons v vals ih =>
    intro asgn var t st hpref hd h
    have hnotmem := keysPref_var_not_mem hnd hpref hd
    by_cases hcons : es_consistente_con_asignacion asgn var v = true
    · rw [show btTryWith (backtracking orden doms fuel) asgn var (v :: vals)
          = (if es_consistente_con_asignacion asgn var v then
              match backtracking orden doms fuel (dictSet asgn var v) with
              | none => none
              | some (some sol, st) => some (some sol, st)
              | some (none, st) => btTryWith (backtracking orden doms fuel) (dictDel st var) var vals
            else btTryWith (backtracking orden doms fuel) asgn var vals) from rfl,
        if_pos hcons] at h
      have hset : dictSet asgn var v = asgn ++ [(var, v)] := dictSet_of_not_mem v hnotmem
      rw [hset] at h
      cases hbt : backtracking orden doms fuel (asgn ++ [(var, v)]) with
      | none =>
        rw [hbt] at h
        have h2 : (none : Option (Option (List (Nat × Nat)) × List (Nat × Nat)))
            = some (none, st) := h
        cases h2
      | some r =>
        rcases r with ⟨res, st1⟩
        cases res with
        | some sol =>
          rw [hbt] at h
          have h2 : some (some sol, st1) = some ((none : Option (List (Nat × Nat))), st) := h
          have := Option.some.inj h2
          cases congrArg Prod.fst this
        | none =>
          rw [hbt] at h
          have h2 : btTryWith (backtracking orden doms fuel) (dictDel st1 var) var vals
              = some (none, st) := h
          have hst1 : st1 = asgn ++ [(var, v)] :=
            hrec (asgn ++ [(var, v)]) st1 (keysPref_extend hpref hd) hbt
          rw [hst1, dictDel_append_single hnotmem] at h2
          exact ih asgn var t st hpref hd h2
    · rw [show btTryWith (backtracking orden doms fuel) asgn var (v :: vals)
          = (if es_consistente_con_asignacion asgn var v then
              match backtracking orden doms fuel (dictSet asgn var v) with
              | none => none
              | some (some sol, st) => some (some sol, st)
              | some (none, st) => btTryWith (backtracking orden doms fuel) (dictDel st var) var vals
            else btTryWith (backtracking orden doms fuel) asgn var vals) from rfl,
        if_neg hcons] at h
      exact ih asgn var t st hpref hd h

theorem backtracking_none_restores (orden : List Nat) (doms : Nat → List Nat)
    (hnd : orden.Nodup) :
    ∀ (fuel : Nat) (asgn st : List (Nat × Nat)), keysPref orden asgn →
    backtracking orden doms fuel asgn = some (none, st) → st = asgn := by
  intro fuel
  induction fuel with
  | zero =>
    intro asgn st _ h
    cases h
  | succ fuel ih =>
    intro asgn st hpref h
    by_cases hlen : asgn.length = orden.length
    · rw [show backtracking orden doms (fuel + 1) asgn
          = (if asgn.length = orden.length then some (some asgn, asgn)
             else match orden.drop asgn.length with
              | [] => none
              | var :: _ => btTryWith (backtracking orden doms fuel) asgn var (doms var)) from rfl,
        if_pos hlen] at h
      have := Option.some.inj h
      cases congrArg Prod.fst this
    · rw [show backtracking orden doms (fuel + 1) asgn
          = (if asgn.length = orden.length then some (some asgn, asgn)
             else match orden.drop asgn.length with
              | [] => none
              | var :: _ => btTryWith (backtracking orden doms fuel) asgn var (doms var)) from rfl,
        if_neg hlen] at h
      cases hd : orden.drop asgn.length with
      | nil =>
        rw [hd] at h
        cases h
      | cons var t =>
        rw [hd] at h
        exact btTryWith_none_restores orden doms fuel hnd ih (doms var) asgn var t st hpref hd h

/-- C10: whenever `backtracking` returns the failure answer `None`, the
`asignacion_parcial` dict handed in by the caller holds exactly the same
entries as at the moment of the call — every tentative assignment made
during the failed search has been undone by the `del` on the backtrack
path (stated for callers respecting the search discipline: the keys of
the partial assignment are the first variables of the order, which holds
in particular for the empty dict of the top-level call). -/
theorem c10_backtracking_failure_restores (orden : List Nat) (doms : Nat → List Nat)
    (fuel : Nat) (asgn st : List (Nat × Nat)) (hnd : orden.Nodup)
    (hpref : asgn.map Prod.fst = orden.take asgn.length)
    (h : backtracking orden doms fuel asgn = some (none, st)) : st = asgn :=
  backtracking_none_restores orden doms hnd fuel asgn st hpref h

/-- Witness for C10: the failed search on the 2-color triangle instance
returns the empty dict it was called with. -/
theorem c10_witness :
    ([1, 2, 3] : List Nat).Nodup ∧
    (([] : List (Nat × Nat)).map Prod.fst = ([1, 2, 3] : List Nat).take 0) ∧
    backtracking [1, 2, 3] (fun _ => [0, 1]) 4 [] = some (none, []) ∧
    ([] : List (Nat × Nat)) = [] :=
  ⟨by decide, rfl, by decide,
    c10_backtracking_failure_restores [1, 2, 3] (fun _ => [0, 1]) 4 [] []
      (by decide) rfl (by decide)⟩

/-! ## Claim C1: solutions are complete and constraint-satisfying -/

/-- What C1 asserts of a returned assignment: every variable of the
input order has exactly one value (present, and the keys are
duplicate-free), and no adjacent pair shares a value. -/
def solutionOK (orden : List Nat) (a : List (Nat × Nat)) : Prop :=
  (∀ v ∈ orden, (dictGet a v).isSome = true) ∧
  (a.map Prod.fst).Nodup ∧
  (∀ p ∈ a, ∀ q ∈ a, p.1 ∈ ady q.1 → p.2 ≠ q.2)

theorem dictGet_isSome_of_key_mem {α : Type} {d : List (Nat × α)} {k : Nat}
    (h : k ∈ d.map Prod.fst) : (dictGet d k).isSome = true := by
  obtain ⟨p, hp, hpk⟩ := List.mem_map.mp h
  have : (k, p.2) ∈ d := by
    rcases p with ⟨p1, p2⟩
    cases hpk
    exact hp
  exact dictGet_isSome_of_mem this

/-- The invariant of the backtracking recursion: prefix keys plus
pairwise constraint satisfaction of all current entries. -/
def btInv (orden : List Nat) (asgn : List (Nat × Nat)) : Prop :=
  keysPref orden asgn ∧ ∀ p ∈ asgn, ∀ q ∈ asgn, p.1 ∈ ady q.1 → p.2 ≠ q.2

theorem es_consistente_elim {asgn : List (Nat × Nat)} {var v : Nat}
    (h : es_consistente_con_asignacion asgn var v = true) :
    ∀ p ∈ asgn, p.1 ∈ ady var → v ≠ p.2 := by
  intro p hp hadj
  have hall := List.all_eq_true.mp h p hp
  unfold no_conflicto_binario at hall
  rw [if_pos hadj] at hall
  exact bne_iff_ne.mp hall

theorem btInv_extend {orden : List Nat} {asgn : List (Nat × Nat)} {var v : Nat}
    {t : List Nat} (hinv : btInv orden asgn)
    (hd : orden.drop asgn.length = var :: t)
    (hcons : es_consistente_con_asignacion asgn var v = true) :
    btInv orden (asgn ++ [(var, v)]) := by
  refine ⟨keysPref_extend hinv.1 hd, ?_⟩
  intro p hp q hq hadj
  rcases List.mem_append.mp hp with hp1 | hp2
  · rcases List.mem_append.mp hq with hq1 | hq2
    · exact hinv.2 p hp1 q hq1 hadj
    · have hq3 : q = (var, v) := List.mem_singleton.mp hq2
      subst hq3
      intro hc
      exact es_consistente_elim hcons p hp1 hadj hc.symm
  · have hp3 : p = (var, v) := List.mem_singleton.mp hp2
    subst hp3
    rcases List.mem_append.mp hq with hq1 | hq2
    · exact es_consistente_elim hcons q hq1 (ady_symm.mp hadj)
    · have hq3 : q = (var, v) := List.mem_singleton.mp hq2
      subst hq3
      exact absurd hadj (ady_irrefl var)

theorem btTryWith_some_sound (orden : List Nat) (doms : Nat → List Nat)
    (fuel : Nat) (hnd : orden.Nodup)
    (hrecS : ∀ a sol st, btInv orden a →
      backtracking orden doms fuel a = some (some sol, st) → solutionOK orden sol)
    (hrecN : ∀ a st2, keysPref orden a →
      backtracking orden doms fuel a = some (none, st2) → st2 = a) :
    ∀ (vals : List Nat) (asgn : List (Nat × Nat)) (var : Nat) (t : List Nat)
      (sol st : List (Nat × Nat)),
    btInv orden asgn →
    orden.drop asgn.length = var :: t →
    btTryWith (backtracking orden doms fuel) asgn var vals = some (some sol, st) →
    solutionOK orden sol := by
  intro vals
  induction vals with
  | nil =>
    intro asgn var t sol st _ _ h
    have h2 : some ((none : Option (List (Nat × Nat))), asgn) = some (some sol, st) := h
    have := Option.some.inj h2
    cases congrArg Prod.fst this
  | cons v vals ih =>
    intro asgn var t sol st hinv hd h
    have hnotmem := keysPref_var_not_mem hnd hinv.1 hd
    by_cases hcons : es_consistente_con_asignacion asgn var v = true
    · rw [show btTryWith (backtracking orden doms fuel) asgn var (v :: vals)
          = (if es_consistente_con_asignacion asgn var v then
              match backtracking orden doms fuel (dictSet asgn var v) with
              | none => none
              | some (some sol, st) => some (some sol, st)
              | some (none, st) => btTryWith (backtracking orden doms fuel) (dictDel st var) var vals
            else btTryWith (backtracking orden doms fuel) asgn var vals) from rfl,
        if_pos hcons, dictSet_of_not_mem v hnotmem] at h
      cases hbt : backtracking orden doms fuel (asgn ++ [(var, v)]) with
      | none =>
        rw [hbt] at h
        have h2 : (none : Option (Option (List (Nat × Nat)) × List (Nat × Nat)))
            = some (some sol, st) := h
        cases h2
      | some r =>
        rcases r with ⟨res, st1⟩
        cases res with
        | some sol1 =>
          rw [hbt] at h
          have h2 : some (some sol1, st1) = some (some sol, st) := h
          have h3 := Option.some.inj h2
          have h4 : sol1 = sol := by
            have := congrArg Prod.fst h3
            simpa using this
          rw [← h4]
          exact hrecS (asgn ++ [(var, v)]) sol1 st1 (btInv_extend hinv hd hcons) hbt
        | none =>
          rw [hbt] at h
          have h2 : btTryWith (backtracking orden doms fuel) (dictDel st1 var) var vals
              = some (some sol, st) := h
          have hst1 : st1 = asgn ++ [(var, v)] :=
            hrecN (asgn ++ [(var, v)]) st1 (keysPref_extend hinv.1 hd) hbt
          rw [hst1, dictDel_append_single hnotmem] at h2
          exact ih asgn var t sol st hinv hd h2
    · rw [show btTryWith (backtracking orden doms fuel) asgn var (v :: vals)
          = (if es_consistente_con_asignacion asgn var v then
              match backtracking orden doms fuel (dictSet asgn var v) with
              | none => none
              | some (some sol, st) => some (some sol, st)
              | some (none, st) => btTryWith (backtracking orden doms fuel) (dictDel st var) var vals
            else btTryWith (backtracking orden doms fuel) asgn var vals) from rfl,
        if_neg hcons] at h
      exact ih asgn var t sol st hinv hd h

theorem backtracking_sound (orden : List Nat) (doms : Nat → List Nat)
    (hnd : orden.Nodup) :
    ∀ (fuel : Nat) (asgn sol st : List (Nat × Nat)), btInv orden asgn →
    backtracking orden doms fuel asgn = some (some sol, st) →
    solutionOK orden sol := by
  intro fuel
  induction fuel with
  | zero =>
    intro asgn sol st _ h
    cases h
  | succ fuel ih =>
    intro asgn sol st hinv h
    by_cases hlen : asgn.length = orden.length
    · rw [show backtracking orden doms (fuel + 1) asgn
          = (if asgn.length = orden.length then some (some asgn, asgn)
             else match orden.drop asgn.length with
              | [] => none
              | var :: _ => btTryWith (backtracking orden doms fuel) asgn var (doms var)) from rfl,
        if_pos hlen] at h
      have h2 := Option.some.inj h
      have hsol : asgn = sol := by
        have := congrArg Prod.fst h2
        simpa using this
      subst hsol
      have hkeys : asgn.map Prod.fst = orden := by
        rw [hinv.1, hlen, List.take_length]
      refine ⟨?_, ?_, hinv.2⟩
      · intro v hv
        apply dictGet_isSome_of_key_mem
        rw [hkeys]
        exact hv
      · rw [hkeys]
        exact hnd
    · rw [show backtracking orden doms (fuel + 1) asgn
          = (if asgn.length = orden.length then some (some asgn, asgn)
             else match orden.drop asgn.length with
              | [] => none
              | var :: _ => btTryWith (backtracking orden doms fuel) asgn var (doms var)) from rfl,
        if_neg hlen] at h
      cases hd : orden.drop asgn.length with
      | nil =>
        rw [hd] at h
        cases h
      | cons var t =>
        rw [hd] at h
        exact btTryWith_some_sound orden doms fuel hnd ih
          (backtracking_none_restores orden doms hnd fuel)
          (doms var) asgn var t sol st hinv hd h

/-- The domains of the instance on which `backjumping` returns an
incomplete assignment: order [WA=0, NT=1, SA=2] with WA:[ROJO,VERDE],
NT:[ROJO,VERDE,AZUL], SA:[ROJO]. -/
def dominiosIncompletos : Nat → List Nat :=
  fun v => if v = 0 then [0, 1] else if v = 1 then [0, 1, 2] else [0]

theorem bjRun_succ_of_inl {orden : List Nat} {doms : Nat → List Nat} {s s2 : BJState}
    {fuel : Nat} (h : bjStep orden doms s = Sum.inl s2) :
    bjRun orden doms (fuel + 1) s = bjRun orden doms fuel s2 := by
  conv_lhs => rw [show bjRun orden doms (fuel + 1) s
    = (match bjStep orden doms s with
       | Sum.inr r => some r
       | Sum.inl s2 => bjRun orden doms fuel s2) from rfl]
  rw [h]


/-- On the instance of `dominiosIncompletos` — which has the proper
solution WA=VERDE, NT=AZUL, SA=ROJO — the `backjumping` loop terminates
claiming the assignment {NT: AZUL, SA: ROJO}, in which WA has no value:
after the first jump back to WA, WA's next value conflicts with the
still-assigned (stale) NT, so NT enters WA's conflict set, the jump
target is computed forward to NT's index, and the cleanup unassigns WA
without the loop ever returning to index 0. -/
theorem backjumping_returns_incomplete :
    backjumping [0, 1, 2] dominiosIncompletos 7 = some (some [(1, 2), (2, 0)]) := by
  have e1 : bjStep [0, 1, 2] dominiosIncompletos (bjInit [0, 1, 2])
      = Sum.inl ⟨[(0, 0)], [(0, []), (1, []), (2, [])], [(0, 0), (1, 0), (2, 0)], 1⟩ := by
    decide
  have e2 : bjStep [0, 1, 2] dominiosIncompletos
        ⟨[(0, 0)], [(0, []), (1, []), (2, [])], [(0, 0), (1, 0), (2, 0)], 1⟩
      = Sum.inl ⟨[(0, 0), (1, 1)], [(0, []), (1, [0]), (2, [])], [(0, 0), (1, 1), (2, 0)], 2⟩ := by
    decide
  have e3 : bjStep [0, 1, 2] dominiosIncompletos
        ⟨[(0, 0), (1, 1)], [(0, []), (1, [0]), (2, [])], [(0, 0), (1, 1), (2, 0)], 2⟩
      = Sum.inl ⟨[(0, 0), (1, 1)], [(0, [0]), (1, [0]), (2, [])], [(0, 1), (1, 1), (2, 0)], 0⟩ := by
    decide
  have e4 : bjStep [0, 1, 2] dominiosIncompletos
        ⟨[(0, 0), (1, 1)], [(0, [0]), (1, [0]), (2, [])], [(0, 1), (1, 1), (2, 0)], 0⟩
      = Sum.inl ⟨[], [(0, []), (1, [0, 1]), (2, [])], [(0, 0), (1, 2), (2, 0)], 1⟩ := by
    decide
  have e5 : bjStep [0, 1, 2] dominiosIncompletos
        ⟨[], [(0, []), (1, [0, 1]), (2, [])], [(0, 0), (1, 2), (2, 0)], 1⟩
      = Sum.inl ⟨[(1, 2)], [(0, []), (1, [0, 1]), (2, [])], [(0, 0), (1, 2), (2, 0)], 2⟩ := by
    decide
  have e6 : bjStep [0, 1, 2] dominiosIncompletos
        ⟨[(1, 2)], [(0, []), (1, [0, 1]), (2, [])], [(0, 0), (1, 2), (2, 0)], 2⟩
      = Sum.inl ⟨[(1, 2), (2, 0)], [(0, []), (1, [0, 1]), (2, [])], [(0, 0), (1, 2), (2, 0)], 3⟩ := by
    decide
  have e7 : bjStep [0, 1, 2] dominiosIncompletos
        ⟨[(1, 2), (2, 0)], [(0, []), (1, [0, 1]), (2, [])], [(0, 0), (1, 2), (2, 0)], 3⟩
      = Sum.inr (some [(1, 2), (2, 0)]) := by
    decide
  unfold backjumping
  rw [bjRun_succ_of_inl e1, bjRun_succ_of_inl e2, bjRun_succ_of_inl e3,
    bjRun_succ_of_inl e4, bjRun_succ_of_inl e5, bjRun_succ_of_inl e6]
  unfold bjRun
  rw [e7]

/-- C1: for the plain backtracking search of file 18 the claim holds:
every assignment it returns as a solution assigns exactly one value to
every variable of the input order and respects every adjacency
constraint (proved for every instance and every caller state respecting
the search discipline).  For the conflict-directed backjumping search of
file 21 the claim fails on the code: on the order [WA=0, NT=1, SA=2]
with domains WA:[ROJO,VERDE], NT:[ROJO,VERDE,AZUL], SA:[ROJO] it returns
the assignment {NT: AZUL, SA: ROJO}, in which the input variable WA is
not assigned at all (while a genuine full solution of that instance
exists and plain backtracking finds it). -/
theorem c1_soundness_and_backjumping_incompleteness (orden : List Nat)
    (doms : Nat → List Nat) (hnd : orden.Nodup) :
    (∀ (fuel : Nat) (asgn sol st : List (Nat × Nat)), btInv orden asgn →
      backtracking orden doms fuel asgn = some (some sol, st) →
      solutionOK orden sol) ∧
    (backjumping [0, 1, 2] dominiosIncompletos 7 = some (some [(1, 2), (2, 0)]) ∧
      dictGet [((1 : Nat), (2 : Nat)), (2, 0)] 0 = none ∧
      backtracking [0, 1, 2] dominiosIncompletos 4 []
        = some (some [(0, 1), (1, 2), (2, 0)], [(0, 1), (1, 2), (2, 0)])) :=
  ⟨fun fuel asgn sol st hinv h => backtracking_sound orden doms hnd fuel asgn sol st hinv h,
    backjumping_returns_incomplete, by decide, by decide⟩

/-- Witness for C1 at a concrete input: the full Australia run of
`backtracking` returns a solution, and the theorem certifies it complete
and constraint-satisfying. -/
theorem c1_witness :
    variables7.Nodup ∧
    btInv variables7 [] ∧
    backtracking variables7 (fun _ => colores3) 8 []
      = some (some [(0, 0), (1, 1), (2, 2), (3, 0), (4, 1), (5, 0), (6, 1)],
          [(0, 0), (1, 1), (2, 2), (3, 0), (4, 1), (5, 0), (6, 1)]) ∧
    solutionOK variables7 [(0, 0), (1, 1), (2, 2), (3, 0), (4, 1), (5, 0), (6, 1)] :=
  ⟨by decide, ⟨rfl, by decide⟩, by decide,
    (c1_soundness_and_backjumping_incompleteness variables7 (fun _ => colores3) (by decide)).1
      8 [] [(0, 0), (1, 1), (2, 2), (3, 0), (4, 1), (5, 0), (6, 1)]
      [(0, 0), (1, 1), (2, 2), (3, 0), (4, 1), (5, 0), (6, 1)]
      ⟨rfl, by decide⟩ (by decide)⟩

/-! ## Claim C3, amended: characterization of the jump step -/

theorem getD_inj {orden : List Nat} (hnd : orden.Nodup) {i j : Nat}
    (hi : i < orden.length) (hj : j < orden.length)
    (h : orden.getD i 0 = orden.getD j 0) : i = j := by
  rw [List.getD_eq_getElem orden 0 hi, List.getD_eq_getElem orden 0 hj] at h
  exact (List.Nodup.getElem_inj_iff hnd).mp h

theorem foldl_del_get_of_miss (orden : List Nat) :
    ∀ (js : List Nat) (d : List (Nat × Nat)) (q : Nat),
    (∀ j ∈ js, orden.getD j 0 ≠ q) →
    dictGet (js.foldl (fun a j => dictDel a (orden.getD j 0)) d) q = dictGet d q := by
  intro js
  induction js with
  | nil => intro d q _; rfl
  | cons j js ih =>
    intro d q hmiss
    rw [List.foldl_cons,
      ih (dictDel d (orden.getD j 0)) q (fun j2 h2 => hmiss j2 (List.mem_cons_of_mem _ h2))]
    exact dictGet_dictDel_of_ne (fun hc => hmiss j (List.mem_cons_self _ _) hc.symm)

theorem foldl_del_get_of_hit (orden : List Nat) :
    ∀ (js : List Nat) (d : List (Nat × Nat)) (q : Nat),
    (∃ j ∈ js, orden.getD j 0 = q) →
    dictGet (js.foldl (fun a j => dictDel a (orden.getD j 0)) d) q = none := by
  intro js
  induction js with
  | nil =>
    intro d q h
    obtain ⟨j, hj, _⟩ := h
    cases hj
  | cons j js ih =>
    intro d q hhit
    rw [List.foldl_cons]
    by_cases hrest : ∃ j2 ∈ js, orden.getD j2 0 = q
    · exact ih _ q hrest
    · obtain ⟨j1, hj1, he⟩ := hhit
      rcases List.mem_cons.mp hj1 with rfl | hj2
      · have hmiss : ∀ j2 ∈ js, orden.getD j2 0 ≠ q := by
          intro j2 h2 hc
          exact hrest ⟨j2, h2, hc⟩
        rw [foldl_del_get_of_miss orden js _ q hmiss, he]
        exact dictGet_dictDel_self q
      · exact absurd ⟨j1, hj2, he⟩ hrest

theorem foldl_condSet_get_of_miss {α : Type} (orden : List Nat) (salto : Int) (val : α) :
    ∀ (js : List Nat) (d : List (Nat × α)) (q : Nat),
    (∀ j ∈ js, (j : Int) ≠ salto → orden.getD j 0 ≠ q) →
    dictGet (js.foldl
      (fun c (j : Nat) => if (j : Int) ≠ salto then dictSet c (orden.getD j 0) val else c) d) q
      = dictGet d q := by
  intro js
  induction js with
  | nil => intro d q _; rfl
  | cons j js ih =>
    intro d q hmiss
    rw [List.foldl_cons,
      ih _ q (fun j2 h2 => hmiss j2 (List.mem_cons_of_mem _ h2))]
    by_cases hj : (j : Int) ≠ salto
    · rw [if_pos hj]
      exact dictGet_dictSet_of_ne val (fun hc => hmiss j (List.mem_cons_self _ _) hj hc.symm)
    · rw [if_neg hj]

theorem foldl_condSet_get_of_hit {α : Type} (orden : List Nat) (salto : Int) (val : α) :
    ∀ (js : List Nat) (d : List (Nat × α)) (q : Nat),
    (∃ j ∈ js, (j : Int) ≠ salto ∧ orden.getD j 0 = q) →
    dictGet (js.foldl
      (fun c (j : Nat) => if (j : Int) ≠ salto then dictSet c (orden.getD j 0) val else c) d) q
      = some val := by
  intro js
  induction js with
  | nil =>
    intro d q h
    obtain ⟨j, hj, _⟩ := h
    cases hj
  | cons j js ih =>
    intro d q hhit
    rw [List.foldl_cons]
    by_cases hrest : ∃ j2 ∈ js, (j2 : Int) ≠ salto ∧ orden.getD j2 0 = q
    · exact ih _ q hrest
    · obtain ⟨j1, hj1, hne, he⟩ := hhit
      rcases List.mem_cons.mp hj1 with rfl | hj2
      · have hmiss : ∀ j2 ∈ js, (j2 : Int) ≠ salto → orden.getD j2 0 ≠ q := by
          intro j2 h2 hcond hc
          exact hrest ⟨j2, h2, hcond, hc⟩
        rw [foldl_condSet_get_of_miss orden salto val js _ q hmiss, if_pos hne, he]
        exact dictGet_dictSet_self val
      · exact absurd ⟨j1, hj2, hne, he⟩ hrest

/-- C3 amended: when the current variable's domain is exhausted, the
backjumping step jumps to `bjTarget` — the highest order-index among the
conflict-set members present in the order, or one level back when the
conflict set is empty — merges the current conflict set into the jump
target's conflict set and advances the target's value-trial index, while
unassigning and resetting (conflict set and trial index) every variable
from the CURRENT index onward; variables strictly between the jump
target and the current index keep their assignments, conflict sets and
trial indices unchanged (stated for ordinary backward jumps, target
below the current index). -/
theorem c3_amended_jump_characterization (orden : List Nat) (doms : Nat → List Nat)
    (s : BJState) (acc csv : List Nat) (salto : Int)
    (hnd : orden.Nodup) (h0 : 0 ≤ s.idx) (h1 : s.idx < (orden.length : Int))
    (hacc : tryVals s.asgn (orden.getD s.idx.toNat 0) (doms (orden.getD s.idx.toNat 0))
      (trialGet s.trial (orden.getD s.idx.toNat 0)) = (none, acc))
    (hcsv : csv = unionL (csGet s.cs (orden.getD s.idx.toNat 0)) acc)
    (hsdef : salto = bjTarget orden s.idx csv)
    (hlt : salto < s.idx) :
    ∃ s2, bjStep orden doms s = Sum.inl s2 ∧
      s2.idx = salto ∧
      (∀ j : Nat, s.idx.toNat ≤ j → j < orden.length →
        dictGet s2.asgn (orden.getD j 0) = none ∧
        csGet s2.cs (orden.getD j 0) = [] ∧
        trialGet s2.trial (orden.getD j 0) = 0) ∧
      (∀ j : Nat, j < s.idx.toNat → (j : Int) ≠ salto →
        dictGet s2.asgn (orden.getD j 0) = dictGet s.asgn (orden.getD j 0) ∧
        csGet s2.cs (orden.getD j 0) = csGet s.cs (orden.getD j 0) ∧
        trialGet s2.trial (orden.getD j 0) = trialGet s.trial (orden.getD j 0)) ∧
      (0 ≤ salto →
        dictGet s2.asgn (orden.getD salto.toNat 0) = dictGet s.asgn (orden.getD salto.toNat 0) ∧
        csGet s2.cs (orden.getD salto.toNat 0)
          = unionL (csGet s.cs (orden.getD salto.toNat 0)) csv ∧
        trialGet s2.trial (orden.getD salto.toNat 0)
          = trialGet s.trial (orden.getD salto.toNat 0) + 1) := by
  have hii : ((s.idx.toNat : Nat) : Int) = s.idx := Int.toNat_of_nonneg h0
  set i := s.idx.toNat with hi
  have hilen : i < orden.length := by omega
  have hne0 : ¬(s.idx < 0) := by omega
  have hne1 : ¬(s.idx = (orden.length : Int)) := by omega
  have hmemJs : ∀ j : Nat, j ∈ List.range' i (orden.length - i) ↔ i ≤ j ∧ j < orden.length := by
    intro j
    rw [List.mem_range'_1]
    omega
  simp only [bjStep, if_neg hne0, if_neg hne1, hacc, ← hi, ← hcsv, ← hsdef]
  refine ⟨_, rfl, rfl, ?_, ?_, ?_⟩
  · -- variables from the current index onward: unassigned, reset
    intro j hij hjlen
    simp only []
    have hhitA : ∃ j2 ∈ List.range' i (orden.length - i), orden.getD j2 0 = orden.getD j 0 :=
      ⟨j, (hmemJs j).mpr ⟨hij, hjlen⟩, rfl⟩
    have hhit : ∃ j2 ∈ List.range' i (orden.length - i),
        (j2 : Int) ≠ salto ∧ orden.getD j2 0 = orden.getD j 0 :=
      ⟨j, (hmemJs j).mpr ⟨hij, hjlen⟩, by omega, rfl⟩
    have htargetne : 0 ≤ salto → orden.getD salto.toNat 0 ≠ orden.getD j 0 := by
      intro hs0 hc
      have h2 : salto.toNat < orden.length := by omega
      have := getD_inj hnd h2 hjlen hc
      omega
    refine ⟨?_, ?_, ?_⟩
    · rw [foldl_del_get_of_hit orden _ s.asgn _ hhitA]
    · unfold csGet
      rw [foldl_condSet_get_of_hit orden salto ([] : List Nat) _ _ _ hhit]
      rfl
    · unfold trialGet
      by_cases hs0 : 0 ≤ salto
      · rw [if_pos hs0, dictGet_dictSet_of_ne _ (fun hc => htargetne hs0 hc.symm),
          foldl_condSet_get_of_hit orden salto 0 _ _ _ hhit]
        rfl
      · rw [if_neg hs0, foldl_condSet_get_of_hit orden salto 0 _ _ _ hhit]
        rfl
  · -- variables strictly below the current index, other than the target
    intro j hji hjs
    simp only []
    have hjlen : j < orden.length := by omega
    have hkeyi : orden.getD j 0 ≠ orden.getD i 0 := by
      intro hc
      have := getD_inj hnd hjlen hilen hc
      omega
    have hkeyt : 0 ≤ salto → orden.getD j 0 ≠ orden.getD salto.toNat 0 := by
      intro hs0 hc
      have h2 : salto.toNat < orden.length := by omega
      have := getD_inj hnd hjlen h2 hc
      omega
    have hmiss : ∀ j2 ∈ List.range' i (orden.length - i),
        orden.getD j2 0 ≠ orden.getD j 0 := by
      intro j2 h2 hc
      have h3 := (hmemJs j2).mp h2
      have := getD_inj hnd (by omega) hjlen hc
      omega
    refine ⟨?_, ?_, ?_⟩
    · rw [foldl_del_get_of_miss orden _ s.asgn _ hmiss]
    · unfold csGet
      rw [foldl_condSet_get_of_miss orden salto ([] : List Nat) _ _ _
        (fun j2 h2 _ => hmiss j2 h2)]
      by_cases hemp : csv.isEmpty
      · rw [if_pos hemp, dictGet_dictSet_of_ne _ hkeyi]
      · rw [if_neg hemp]
        by_cases hs0 : 0 ≤ salto
        · rw [if_pos hs0, dictGet_dictSet_of_ne _ (hkeyt hs0),
            dictGet_dictSet_of_ne _ hkeyi]
        · rw [if_neg hs0, dictGet_dictSet_of_ne _ hkeyi]
    · unfold trialGet
      by_cases hs0 : 0 ≤ salto
      · rw [if_pos hs0, dictGet_dictSet_of_ne _ (hkeyt hs0),
          foldl_condSet_get_of_miss orden salto 0 _ _ _ (fun j2 h2 _ => hmiss j2 h2),
          dictGet_dictSet_of_ne _ hkeyi]
      · rw [if_neg hs0,
          foldl_condSet_get_of_miss orden salto 0 _ _ _ (fun j2 h2 _ => hmiss j2 h2),
          dictGet_dictSet_of_ne _ hkeyi]
  · -- the jump target itself
    intro hs0
    simp only []
    have hslen : salto.toNat < orden.length := by omega
    have hkeyi : orden.getD salto.toNat 0 ≠ orden.getD i 0 := by
      intro hc
      have := getD_inj hnd hslen hilen hc
      omega
    have hmiss : ∀ j2 ∈ List.range' i (orden.length - i),
        orden.getD j2 0 ≠ orden.getD salto.toNat 0 := by
      intro j2 h2 hc
      have h3 := (hmemJs j2).mp h2
      have := getD_inj hnd (by omega) hslen hc
      omega
    refine ⟨?_, ?_, ?_⟩
    · rw [foldl_del_get_of_miss orden _ s.asgn _ hmiss]
    · unfold csGet
      rw [foldl_condSet_get_of_miss orden salto ([] : List Nat) _ _ _
        (fun j2 h2 _ => hmiss j2 h2)]
      by_cases hemp : csv.isEmpty
      · rw [if_pos hemp, dictGet_dictSet_of_ne _ hkeyi]
        have hcnil : csv = [] := by
          cases csv with
          | nil => rfl
          | cons a t => simp [List.isEmpty] at hemp
        rw [hcnil, unionL_nil]
      · rw [if_neg hemp, if_pos hs0, dictGet_dictSet_self,
          dictGet_dictSet_of_ne _ hkeyi]
        rfl
    · unfold trialGet
      rw [if_pos hs0, dictGet_dictSet_self,
        foldl_condSet_get_of_miss orden salto 0 _ _ _ (fun j2 h2 _ => hmiss j2 h2),
        dictGet_dictSet_of_ne _ hkeyi]
      rfl

/-- Witness for the amended C3 at a concrete input: the state reached on
the instance with order [WA=0, T=6, NT=1] and one-value domains after
assigning WA and T, where NT's domain is about to be exhausted with
conflict set {WA}; the theorem applies with jump target 0. -/
theorem c3_amended_witness :
    (([0, 6, 1] : List Nat).Nodup ∧
      tryVals [(0, 0), (6, 0)] 1 [0] 0 = (none, [0]) ∧
      ([0] : List Nat) = unionL (csGet [(0, []), (6, []), (1, [])] 1) [0] ∧
      (0 : Int) = bjTarget [0, 6, 1] 2 [0]) ∧
    (∃ s2, bjStep [0, 6, 1] (fun _ => [0])
        ⟨[(0, 0), (6, 0)], [(0, []), (6, []), (1, [])], [(0, 0), (6, 0), (1, 0)], 2⟩
        = Sum.inl s2 ∧
      s2.idx = 0 ∧
      (∀ j : Nat, (2 : Int).toNat ≤ j → j < ([0, 6, 1] : List Nat).length →
        dictGet s2.asgn (([0, 6, 1] : List Nat).getD j 0) = none ∧
        csGet s2.cs (([0, 6, 1] : List Nat).getD j 0) = [] ∧
        trialGet s2.trial (([0, 6, 1] : List Nat).getD j 0) = 0) ∧
      (∀ j : Nat, j < (2 : Int).toNat → (j : Int) ≠ 0 →
        dictGet s2.asgn (([0, 6, 1] : List Nat).getD j 0)
          = dictGet [(0, 0), (6, 0)] (([0, 6, 1] : List Nat).getD j 0) ∧
        csGet s2.cs (([0, 6, 1] : List Nat).getD j 0)
          = csGet [(0, []), (6, []), (1, [])] (([0, 6, 1] : List Nat).getD j 0) ∧
        trialGet s2.trial (([0, 6, 1] : List Nat).getD j 0)
          = trialGet [(0, 0), (6, 0), (1, 0)] (([0, 6, 1] : List Nat).getD j 0)) ∧
      ((0 : Int) ≤ 0 →
        dictGet s2.asgn (([0, 6, 1] : List Nat).getD (0 : Int).toNat 0)
          = dictGet [(0, 0), (6, 0)] (([0, 6, 1] : List Nat).getD (0 : Int).toNat 0) ∧
        csGet s2.cs (([0, 6, 1] : List Nat).getD (0 : Int).toNat 0)
          = unionL (csGet [(0, []), (6, []), (1, [])]
              (([0, 6, 1] : List Nat).getD (0 : Int).toNat 0)) [0] ∧
        trialGet s2.trial (([0, 6, 1] : List Nat).getD (0 : Int).toNat 0)
          = trialGet [(0, 0), (6, 0), (1, 0)]
              (([0, 6, 1] : List Nat).getD (0 : Int).toNat 0) + 1)) :=
  ⟨⟨by decide, by decide, by decide, by decide⟩,
    c3_amended_jump_characterization [0, 6, 1] (fun _ => [0])
      ⟨[(0, 0), (6, 0)], [(0, []), (6, []), (1, [])], [(0, 0), (6, 0), (1, 0)], 2⟩
      [0] [0] 0 (by decide) (by decide) (by decide) (by decide) (by decide) (by decide)
      (by decide)⟩
